import Mathlib

/-!
# Verification of the SMPC core (oro-go / smpc-go)

A shallow embedding of the repository's core components, with theorems
settling the specification claims about them:

* `Share`, `joinOpt` — Shamir shares and Lagrange reconstruction
  (`core/vss/shamir`, modelled from the spec where the implementation is
  not in the sources).
* `Pedersen` — commitment scheme (`core/vss/pedersen`, modelled from the
  spec and the test file).
* `vshareAll` / `vverify` / `VerifiableShare.vsAdd` — verifiable secret
  sharing (`core/vss`, modelled from the spec and the test file).
* `Prog` / `Prog.exec` — the program interpreter (`core/vm/program`).
* `MulState` / `mulReduce` — the multiplication task (`core/vm/mul/mul.go`).
* `VMState` / dispatcher receive functions (`core/vm/vm.go`).

Field elements of `F_q` are `ZMod q`; big integers are `ℤ`; Go `nil`
pointers are `Option.none`; a Go `panic` is `Option.none` at the level of
a whole step result.
-/

namespace Tau

/-! ## Shamir shares (`core/vss/shamir`)

Modelled from the spec: shares are pairs `(index, value)`; addition,
subtraction and multiplication act on the values and preserve the index
(§3, §4.2). -/

/-- A Shamir share `(i, y)` with `y ∈ F_q`. -/
structure Share (q : ℕ) where
  index : ℕ
  value : ZMod q
deriving DecidableEq

instance {q : ℕ} : Inhabited (Share q) := ⟨⟨0, 0⟩⟩

/-- Modelled from the spec: `shamir.New(i, v)` builds the share `(i, v)`. -/
def Share.new {q : ℕ} (i : ℕ) (v : ZMod q) : Share q := ⟨i, v⟩

/-- Modelled from the spec: share addition adds the y-coordinates and
preserves the index (§4.2). -/
def Share.add {q : ℕ} (a b : Share q) : Share q := ⟨a.index, a.value + b.value⟩

/-- Modelled from the spec: share subtraction (used by the multiplier to
remove the `σ` offset) subtracts the y-coordinates and preserves the
index. -/
def Share.sub {q : ℕ} (a b : Share q) : Share q := ⟨a.index, a.value - b.value⟩

/-- Modelled from the spec: share multiplication multiplies the
y-coordinates and preserves the index (§4.2). -/
def Share.mul {q : ℕ} (a b : Share q) : Share q := ⟨a.index, a.value * b.value⟩

/-- The share's evaluation point as a field element. -/
def Share.x {q : ℕ} (sh : Share q) : ZMod q := (sh.index : ZMod q)

/-- Modelled from the spec: the multiplicative inverse in `F_q` (§4.1, the
implementation uses the extended Euclidean algorithm; this computable
search returns the same element of `F_q`, and `0` when the input is not
invertible, as shown by `zinv_eq_inv`). -/
def zinv {q : ℕ} (a : ZMod q) : ZMod q :=
  ((((List.range q).find? (fun (b : ℕ) => a * (b : ZMod q) = 1)).getD 0 : ℕ) : ZMod q)

theorem zinv_eq_inv {q : ℕ} [Fact q.Prime] (a : ZMod q) : zinv a = a⁻¹ := by
  unfold zinv
  rcases eq_or_ne a 0 with rfl | ha
  · have hnone : (List.range q).find? (fun (b : ℕ) => (0 : ZMod q) * (b : ZMod q) = 1) = none := by
      rw [List.find?_eq_none]
      intro b _
      simp
    rw [hnone]
    simp
  · have hmem : a⁻¹.val ∈ List.range q := by
      rw [List.mem_range]
      exact ZMod.val_lt _
    have hp : (fun (b : ℕ) => decide (a * (b : ZMod q) = 1)) a⁻¹.val = true := by
      simp [ZMod.natCast_val, ZMod.cast_id, mul_inv_cancel₀ ha]
    have hsome : ((List.range q).find? (fun (b : ℕ) => a * (b : ZMod q) = 1)).isSome := by
      rw [List.find?_isSome]
      exact ⟨a⁻¹.val, hmem, hp⟩
    obtain ⟨b, hb⟩ := Option.isSome_iff_exists.mp hsome
    have hbp : (b : ZMod q) * a = 1 := by
      have := List.find?_some hb
      simpa [mul_comm] using this
    rw [hb]
    simp only [Option.getD_some]
    exact eq_inv_of_mul_eq_one_left hbp

/-- Numerator `∏ x_t` over the other shares of the Lagrange term of `sh`. -/
def lagNum {q : ℕ} (s : Finset (Share q)) (sh : Share q) : ZMod q :=
  ∏ t ∈ s.erase sh, t.x

/-- Denominator `∏ (x_t - x_sh)` over the other shares of the Lagrange
term of `sh`. -/
def lagDen {q : ℕ} (s : Finset (Share q)) (sh : Share q) : ZMod q :=
  ∏ t ∈ s.erase sh, (t.x - sh.x)

/-- Modelled from the spec: `shamir.Join` reconstructs `f(0)` by Lagrange
interpolation (§4.2).  It fails on fewer than one share, on duplicate
indices, and on a division by zero (§4.1), which happens exactly when two
indices collide modulo `q`. -/
def joinOpt {q : ℕ} (shares : List (Share q)) : Option (ZMod q) :=
  if shares.isEmpty then none
  else if ¬ (shares.map Share.index).Nodup then none
  else if ∃ sh ∈ shares, lagDen shares.toFinset sh = 0 then none
  else some (∑ sh ∈ shares.toFinset,
    sh.value * lagNum shares.toFinset sh * zinv (lagDen shares.toFinset sh))

/-- Horner evaluation of the polynomial with coefficient list `cs`
(low-order first), the shape used by `Share(s, n, k)` (§4.2). -/
def evalPoly {q : ℕ} (cs : List (ZMod q)) (xv : ZMod q) : ZMod q :=
  match cs with
  | [] => 0
  | c :: rest => c + xv * evalPoly rest xv

/-! ## Pedersen commitments (`core/vss/pedersen`)

Modelled from the spec (§4.3) and the behaviour asserted by the package's
test file (`pedersen_test.go`, in the sources): `Commit` returns `nil`
when an argument is `nil`, and `Verify` returns `ErrNilArguments` when an
argument is `nil`, `nil` (OK) on a matching commitment and
`ErrUnacceptableCommitment` otherwise.  Group elements are residues mod
`p`; absent (`nil`) big integers are `Option.none`. -/

/-- A Pedersen scheme `(p, q, g, h)`. -/
structure Pedersen where
  p : ℕ
  q : ℕ
  g : ℕ
  h : ℕ
deriving DecidableEq

/-- The result of `Pedersen.Verify`: `ok` models a `nil` error return. -/
inductive VerifyResult
  | ok
  | errNilArguments
  | errUnacceptableCommitment
deriving DecidableEq

/-- Modelled from the spec: `Commit(s, t) = g^s · h^t mod p`; returns
`nil` when an argument is `nil` (asserted by the tests). -/
def Pedersen.commit (ped : Pedersen) (s t : Option ℕ) : Option ℕ :=
  match s, t with
  | some s, some t => some (ped.g ^ s * ped.h ^ t % ped.p)
  | _, _ => none

/-- Modelled from the spec: `Verify(s, t, C)` returns `ErrNilArguments`
when an argument is `nil`, OK when `C` equals `Commit(s, t)` and
`ErrUnacceptableCommitment` otherwise. -/
def Pedersen.verify (ped : Pedersen) (s t c : Option ℕ) : VerifyResult :=
  match s, t, c with
  | some s, some t, some c =>
    if ped.g ^ s * ped.h ^ t % ped.p = c then VerifyResult.ok
    else VerifyResult.errUnacceptableCommitment
  | _, _, _ => VerifyResult.errNilArguments

/-! ## Verifiable secret sharing (`core/vss`)

Modelled from the spec (§4.4) and the test file (`vss_test.go`, in the
sources).  The sampled polynomial coefficients appear as explicit
arguments (`scoeffs = s :: a_1 … a_{k-1}`, `rcoeffs = r :: b_1 … b_{k-1}`).
The generators `g`, `h` live in `ZMod p`. -/

/-- A verifiable share: the secret share, the blinding share, and the
commitment vector. -/
structure VerifiableShare (p q : ℕ) where
  share : Share q
  rshare : Share q
  commitments : List (ZMod p)
deriving DecidableEq

/-- Modelled from the spec: the commitment vector
`C_j = g^{a_j} · h^{b_j}` for the coefficient lists of the secret and
blinding polynomials (§4.4). -/
def commitVec {p q : ℕ} (g h : ZMod p) (scoeffs rcoeffs : List (ZMod q)) :
    List (ZMod p) :=
  List.zipWith (fun a b => g ^ a.val * h ^ b.val) scoeffs rcoeffs

/-- Modelled from the spec: the verifiable share handed to participant
`i`, with `s`-share `(i, f(i))`, `r`-share `(i, g(i))` and the common
commitment vector (§4.4). -/
def vshareOne {p q : ℕ} (g h : ZMod p) (scoeffs rcoeffs : List (ZMod q))
    (i : ℕ) : VerifiableShare p q :=
  ⟨⟨i, evalPoly scoeffs (i : ZMod q)⟩, ⟨i, evalPoly rcoeffs (i : ZMod q)⟩,
    commitVec g h scoeffs rcoeffs⟩

/-- Modelled from the spec: `Share(ped, secret, n, k)` outputs the
verifiable shares of participants `1..n` (§4.4). -/
def vshareAll {p q : ℕ} (g h : ZMod p) (scoeffs rcoeffs : List (ZMod q))
    (n : ℕ) : List (VerifiableShare p q) :=
  (List.range n).map (fun i => vshareOne g h scoeffs rcoeffs (i + 1))

/-- The product `∏ C_j ^ (i ^ j)` starting at exponent offset `j`. -/
def commitProd {p : ℕ} (i : ℕ) : List (ZMod p) → ℕ → ZMod p
  | [], _ => 1
  | c :: cs, j => c ^ (i ^ j) * commitProd i cs (j + 1)

/-- Modelled from the spec: `Verify(ped, vs)` compares
`g^{vs.share.y} · h^{vs.rshare.y}` with `∏ C_j^{i^j}` and panics when the
commitment vector is empty (§4.4); the panic is `none`. -/
def vverify {p q : ℕ} (g h : ZMod p) (vs : VerifiableShare p q) :
    Option Bool :=
  if vs.commitments.isEmpty then none
  else some (decide (g ^ vs.share.value.val * h ^ vs.rshare.value.val =
    commitProd vs.share.index vs.commitments 0))

/-- Modelled from the spec: addition of verifiable shares adds both inner
shares and multiplies the commitment vectors pointwise (§4.4). -/
def VerifiableShare.vsAdd {p q : ℕ} (a b : VerifiableShare p q) :
    VerifiableShare p q :=
  ⟨a.share.add b.share, a.rshare.add b.rshare,
    List.zipWith (· * ·) a.commitments b.commitments⟩

/-! ## The program interpreter (`core/vm/program`, `part_001`)

Values, instructions, intents and `Exec` follow the source directly.  A
single-slot result channel is `Option (Option α)`: `none` is a `nil`
channel reference, `some none` an allocated empty channel, `some (some v)`
a channel holding `v`.  A `panic` is `none` at the level of the whole
step. -/

/-- The `Value` union: `ValuePublic` (a plaintext big integer),
`ValuePrivate` (a share), `ValuePrivateRn` (a `(ρ, σ)` tuple). -/
inductive Value (q : ℕ)
  | ValuePublic (n : ℤ)
  | ValuePrivate (share : Share q)
  | ValuePrivateRn (rho sigma : Share q)
deriving DecidableEq

/-- The runtime type of a `Value`, used in `ErrorUnexpectedValue`. -/
inductive ValueTag
  | publicTag
  | privateTag
  | privateRnTag
deriving DecidableEq

/-- The runtime type of a value. -/
def Value.tag {q : ℕ} : Value q → ValueTag
  | .ValuePublic _ => .publicTag
  | .ValuePrivate _ => .privateTag
  | .ValuePrivateRn _ _ => .privateRnTag

/-- Instructions, with the in-place mutable suspension state of `InstRand`,
`InstMul` and `InstOpen` as constructor fields (the source stores the
channels and the received results inside the instruction value). -/
inductive Inst (q : ℕ)
  | InstPush (v : Value q)
  | InstAdd
  | InstRand (rhoCh sigmaCh : Option (Option (Share q)))
      (rhoReady sigmaReady : Bool) (rho sigma : Share q)
  | InstMul (retCh : Option (Option (Share q))) (retReady : Bool) (ret : Share q)
  | InstOpen (retCh : Option (Option ℤ)) (retReady : Bool) (ret : ℤ)
deriving DecidableEq

instance {q : ℕ} : Inhabited (Inst q) := ⟨Inst.InstAdd⟩

/-- The errors wrapped into `IntentToError` by the source's
`ErrorExecution`, `ErrorCodeOverflow`, `ErrorUnexpectedValue`; stack
underflow is the stack error of the spec (§7). -/
inductive ExecError
  | codeOverflow (pc : ℕ)
  | stackUnderflow (pc : ℕ)
  | unexpectedValue (got expected : ValueTag) (pc : ℕ)
deriving DecidableEq

/-- The intents of the source: `IntentToGenRn`, `IntentToMultiply`,
`IntentToOpen`, `IntentToError` (channel references are stored in the
instruction, not repeated here). -/
inductive Intent (q : ℕ)
  | IntentToGenRn
  | IntentToMultiply (x y rho sigma : Share q)
  | IntentToOpen (v : Share q)
  | IntentToError (e : ExecError)
deriving DecidableEq

/-- The result of one interpreter step (`Return` in the source):
`Ready()` is `⟨none, true⟩`, `NotReady(intent)` is `⟨intent, false⟩`. -/
structure Ret (q : ℕ) where
  intent : Option (Intent q)
  ready : Bool
deriving DecidableEq

/-- `Ready()`. -/
def Ready {q : ℕ} : Ret q := ⟨none, true⟩

/-- `NotReady(intent)` (the argument may be `nil`). -/
def NotReady {q : ℕ} (i : Option (Intent q)) : Ret q := ⟨i, false⟩

/-- Whether an intent is an error intent. -/
def Intent.isError {q : ℕ} : Intent q → Bool
  | .IntentToError _ => true
  | _ => false

/-- A program: stack, code and program counter (the memory map is unused
by the instruction set in the source and omitted). -/
structure Prog (q : ℕ) where
  stack : List (Value q)
  code : List (Inst q)
  pc : ℕ
deriving DecidableEq

/-- Modelled from the spec: `Stack.Pop`, failing only on an empty stack
(§7 lists stack underflow as the stack error). -/
def stackPop {q : ℕ} : List (Value q) → Option (Value q × List (Value q))
  | [] => none
  | v :: rest => some (v, rest)

/-- Modelled from the spec: `ValuePublic.Add` — Public+Public and
Public+Private are defined (§4.9); addition with a `PrivateRn` operand is
unspecified and panics. -/
def publicAdd {q : ℕ} (lhs : ℤ) (rhs : Value q) : Option (Value q) :=
  match rhs with
  | .ValuePublic m => some (.ValuePublic (lhs + m))
  | .ValuePrivate sh => some (.ValuePrivate ⟨sh.index, sh.value + (lhs : ZMod q)⟩)
  | .ValuePrivateRn _ _ => none

/-- Modelled from the spec: `ValuePrivate.Add` — Private+Public and
Private+Private are defined (§4.9); addition with a `PrivateRn` operand is
unspecified and panics. -/
def privateAdd {q : ℕ} (lhs : Share q) (rhs : Value q) : Option (Value q) :=
  match rhs with
  | .ValuePublic m => some (.ValuePrivate ⟨lhs.index, lhs.value + (m : ZMod q)⟩)
  | .ValuePrivate sh => some (.ValuePrivate (lhs.add sh))
  | .ValuePrivateRn _ _ => none

/-- `execInstPush`. -/
def execInstPush {q : ℕ} (prog : Prog q) (v : Value q) : Prog q × Ret q :=
  ({ prog with stack := v :: prog.stack, pc := prog.pc + 1 }, Ready)

/-- `execInstAdd`: pop `rhs`, pop `lhs`, dispatch on the type of `lhs`;
the source's `default` branch panics (`none`). -/
def execInstAdd {q : ℕ} (prog : Prog q) : Option (Prog q × Ret q) :=
  match stackPop prog.stack with
  | none => some (prog, NotReady (some (.IntentToError (.stackUnderflow prog.pc))))
  | some (rhs, s1) =>
    match stackPop s1 with
    | none => some ({ prog with stack := s1 },
        NotReady (some (.IntentToError (.stackUnderflow prog.pc))))
    | some (lhs, s2) =>
      let prog2 : Prog q := { prog with stack := s2 }
      match lhs with
      | .ValuePublic lv =>
        match publicAdd lv rhs with
        | none => none
        | some ret =>
          some ({ prog2 with stack := ret :: prog2.stack, pc := prog2.pc + 1 }, Ready)
      | .ValuePrivate lsh =>
        match privateAdd lsh rhs with
        | none => none
        | some ret =>
          some ({ prog2 with stack := ret :: prog2.stack, pc := prog2.pc + 1 }, Ready)
      | .ValuePrivateRn _ _ => none

/-- The σ-polling tail of `execInstRand`, entered once ρ is available
(`rcNow` is the current content of the ρ channel as recorded in the
instruction). -/
def randPollSigma {q : ℕ} (prog : Prog q) (rcNow : Option (Share q))
    (sc : Option (Share q)) (sigmaReady : Bool) (rho sigma : Share q) :
    Prog q × Ret q :=
  if sigmaReady then
    ({ prog with
        stack := Value.ValuePrivateRn rho sigma :: prog.stack
        pc := prog.pc + 1 }, Ready)
  else
    match sc with
    | none => (prog, NotReady none)
    | some v =>
      let prog1 : Prog q := { prog with
        code := prog.code.set prog.pc (.InstRand (some rcNow) (some none) true true rho v) }
      ({ prog1 with
          stack := Value.ValuePrivateRn rho v :: prog1.stack
          pc := prog1.pc + 1 }, Ready)

/-- `execInstRand`: allocate the two single-slot channels on first entry
and emit `IntentToGenRn`; on re-entry poll ρ then σ without blocking,
recording consumed values in the instruction; push `ValuePrivateRn` and
advance only when both are available. -/
def execInstRand {q : ℕ} (prog : Prog q) (rhoCh sigmaCh : Option (Option (Share q)))
    (rhoReady sigmaReady : Bool) (rho sigma : Share q) : Prog q × Ret q :=
  match rhoCh, sigmaCh with
  | some rc, some sc =>
    if rhoReady then randPollSigma prog rc sc sigmaReady rho sigma
    else
      match rc with
      | none => (prog, NotReady none)
      | some v =>
        let prog1 : Prog q := { prog with
          code := prog.code.set prog.pc (.InstRand (some none) (some sc) true sigmaReady v sigma) }
        randPollSigma prog1 none sc sigmaReady v sigma
  | _, _ =>
    ({ prog with
        code := prog.code.set prog.pc
          (.InstRand (some none) (some none) rhoReady sigmaReady rho sigma) },
      NotReady (some .IntentToGenRn))

/-- `execInstMul`: on first entry pop `rn` (must be `ValuePrivateRn`),
pop `y` (must be `ValuePrivate`), pop `x` (must be `ValuePrivate`),
allocate the result channel and emit `IntentToMultiply`; on re-entry poll
the channel, push `ValuePrivate` and advance once the result arrived. -/
def execInstMul {q : ℕ} (prog : Prog q) (retCh : Option (Option (Share q)))
    (retReady : Bool) (ret : Share q) : Prog q × Ret q :=
  match retCh with
  | none =>
    match stackPop prog.stack with
    | none => (prog, NotReady (some (.IntentToError (.stackUnderflow prog.pc))))
    | some (rnValue, s1) =>
      match rnValue with
      | .ValuePrivateRn ρ σ =>
        match stackPop s1 with
        | none => ({ prog with stack := s1 },
            NotReady (some (.IntentToError (.stackUnderflow prog.pc))))
        | some (yValue, s2) =>
          match yValue with
          | .ValuePrivate y =>
            match stackPop s2 with
            | none => ({ prog with stack := s2 },
                NotReady (some (.IntentToError (.stackUnderflow prog.pc))))
            | some (xValue, s3) =>
              match xValue with
              | .ValuePrivate x =>
                ({ prog with
                    stack := s3
                    code := prog.code.set prog.pc (.InstMul (some none) retReady ret) },
                  NotReady (some (.IntentToMultiply x y ρ σ)))
              | _ => ({ prog with stack := s3 },
                  NotReady (some (.IntentToError
                    (.unexpectedValue xValue.tag .privateTag prog.pc))))
          | _ => ({ prog with stack := s2 },
              NotReady (some (.IntentToError
                (.unexpectedValue yValue.tag .privateTag prog.pc))))
      | _ => ({ prog with stack := s1 },
          NotReady (some (.IntentToError
            (.unexpectedValue rnValue.tag .privateRnTag prog.pc))))
  | some rc =>
    if retReady then
      ({ prog with
          stack := Value.ValuePrivate ret :: prog.stack
          pc := prog.pc + 1 }, Ready)
    else
      match rc with
      | none => (prog, NotReady none)
      | some v =>
        let prog1 : Prog q := { prog with
          code := prog.code.set prog.pc (.InstMul (some none) true v) }
        ({ prog1 with
            stack := Value.ValuePrivate v :: prog1.stack
            pc := prog1.pc + 1 }, Ready)

/-- `execInstOpen`: on first entry pop `v` (must be `ValuePrivate`),
allocate the result channel and emit `IntentToOpen`; on re-entry poll the
channel, push `ValuePublic` and advance once the result arrived. -/
def execInstOpen {q : ℕ} (prog : Prog q) (retCh : Option (Option ℤ))
    (retReady : Bool) (ret : ℤ) : Prog q × Ret q :=
  match retCh with
  | none =>
    match stackPop prog.stack with
    | none => (prog, NotReady (some (.IntentToError (.stackUnderflow prog.pc))))
    | some (value, s1) =>
      match value with
      | .ValuePrivate v =>
        ({ prog with
            stack := s1
            code := prog.code.set prog.pc (.InstOpen (some none) retReady ret) },
          NotReady (some (.IntentToOpen v)))
      | _ => ({ prog with stack := s1 },
          NotReady (some (.IntentToError
            (.unexpectedValue value.tag .privateTag prog.pc))))
  | some rc =>
    if retReady then
      ({ prog with
          stack := Value.ValuePublic ret :: prog.stack
          pc := prog.pc + 1 }, Ready)
    else
      match rc with
      | none => (prog, NotReady none)
      | some v =>
        let prog1 : Prog q := { prog with
          code := prog.code.set prog.pc (.InstOpen (some none) true v) }
        ({ prog1 with
            stack := Value.ValuePublic v :: prog1.stack
            pc := prog1.pc + 1 }, Ready)

/-- `Program.Exec`: code overflow check first, then dispatch on the
current instruction.  `none` models a Go panic. -/
def Prog.exec {q : ℕ} (prog : Prog q) : Option (Prog q × Ret q) :=
  match prog.code.get? prog.pc with
  | none => some (prog, NotReady (some (.IntentToError (.codeOverflow prog.pc))))
  | some inst =>
    match inst with
    | .InstPush v => some (execInstPush prog v)
    | .InstAdd => execInstAdd prog
    | .InstRand rhoCh sigmaCh rhoReady sigmaReady rho sigma =>
      some (execInstRand prog rhoCh sigmaCh rhoReady sigmaReady rho sigma)
    | .InstMul retCh retReady ret => some (execInstMul prog retCh retReady ret)
    | .InstOpen retCh retReady ret => some (execInstOpen prog retCh retReady ret)

/-! ## The multiplication task (`core/vm/mul/mul.go`)

The `multiplier` struct and its `Reduce` are embedded directly.  Message
ids are `ℕ`; the per-id Go maps `muls` and `results` are functions to
`Option`; the per-id map of received `OpenMul` messages is an association
list sorted by sender index (a canonical representation of the Go map,
whose iteration order does not matter because Lagrange interpolation is a
sum over the set of entries).  `none` at the level of a whole reduce step
models the source's `panic(err)` after a failed `shamir.Join` or an
out-of-range batch access. -/

/-- A `Mul` message: the signal to open, carrying `xs`, `ys`, `ρs`, `σs`. -/
structure MulMsgT (q : ℕ) where
  id : ℕ
  xs : List (Share q)
  ys : List (Share q)
  ρs : List (Share q)
  σs : List (Share q)
deriving DecidableEq

/-- An `OpenMul` message: a sender's intermediate shares for an id. -/
structure OpenMulT (q : ℕ) where
  id : ℕ
  From : ℕ
  shares : List (Share q)
deriving DecidableEq

/-- A `Result` message of the multiplier. -/
structure MulResultT (q : ℕ) where
  id : ℕ
  shares : List (Share q)
deriving DecidableEq

/-- The multiplier's configuration: own index and the parameters `n`, `k`. -/
structure MulCfg where
  index : ℕ
  n : ℕ
  k : ℕ
deriving DecidableEq

/-- The mutable state of the `multiplier` struct. -/
structure MulState (q : ℕ) where
  muls : ℕ → Option (MulMsgT q)
  opens : ℕ → List (ℕ × OpenMulT q)
  results : ℕ → Option (MulResultT q)

/-- The empty multiplier state (`newMultiplier`). -/
def mulInit (q : ℕ) : MulState q := ⟨fun _ => none, fun _ => [], fun _ => none⟩

/-- Point update of an id-keyed map. -/
def updFn {α : Type} (f : ℕ → α) (i : ℕ) (v : α) : ℕ → α :=
  fun j => if j = i then v else f j

/-- `multiplier.opens[id][message.From] = message`: insert into the
sender-sorted association list, replacing an existing entry for the same
sender (Go map assignment, last write wins). -/
def insertOpen {q : ℕ} (l : List (ℕ × OpenMulT q)) (m : OpenMulT q) :
    List (ℕ × OpenMulT q) :=
  match l with
  | [] => [(m.From, m)]
  | (s, o) :: rest =>
    if m.From < s then (m.From, m) :: (s, o) :: rest
    else if m.From = s then (m.From, m) :: rest
    else (s, o) :: insertOpen rest m

/-- The column of stored shares at batch position `b` (the source's
`sharesCache`, one entry per stored `OpenMul`). -/
def openColumn {q : ℕ} (l : List (ℕ × OpenMulT q)) (b : ℕ) : List (Share q) :=
  l.map (fun so => so.2.shares.getD b default)

/-- `multiplier.tryOpenMul`: store the message, then fire exactly when the
quorum, the `Mul` signal and the absence of a cached result all hold.
Returns the new state and the emitted `Result`, or `none` for a panic
(failed `shamir.Join` or out-of-range index). -/
def tryOpenMul {q : ℕ} (cfg : MulCfg) (s : MulState q) (m : OpenMulT q) :
    Option (MulState q × Option (MulResultT q)) :=
  let opens1 := insertOpen (s.opens m.id) m
  let s1 : MulState q := { s with opens := updFn s.opens m.id opens1 }
  if opens1.length < cfg.k then some (s1, none)
  else
    match s.muls m.id with
    | none => some (s1, none)
    | some mulmsg =>
      if (s.results m.id).isSome then some (s1, none)
      else
        let batch := m.shares.length
        -- `sharesCache := make([]shamir.Share, multiplier.n)` (mul.go:97): the
        -- batch loop writes one slot per stored opening, so with more than `n`
        -- stored openings the write `sharesCache[n]` is out of range and the
        -- task panics (for any nonempty batch).
        if 1 ≤ batch ∧ cfg.n < opens1.length then none
        else if (∀ so ∈ opens1, batch ≤ so.2.shares.length) ∧ batch ≤ mulmsg.σs.length then
          if ∀ b < batch, (joinOpt (openColumn opens1 b)).isSome then
            let shares := (List.range batch).map (fun b =>
              let σ := mulmsg.σs.getD b default
              (Share.new σ.index ((joinOpt (openColumn opens1 b)).getD 0)).sub σ)
            let r : MulResultT q := ⟨m.id, shares⟩
            some
              ({ muls := updFn s.muls m.id none
                 opens := updFn s.opens m.id []
                 results := updFn s.results m.id (some r) }, some r)
          else none
        else none

/-- `multiplier.mul`: return the cached result if present; otherwise
record the signal, compute the local openings `xs·ys + ρs`, and feed them
through `tryOpenMul` (the source's `MessageBatch` also broadcasts the
`OpenMul`, which is the third component). -/
def mulFn {q : ℕ} (cfg : MulCfg) (s : MulState q) (m : MulMsgT q) :
    Option (MulState q × List (MulResultT q) × Option (OpenMulT q)) :=
  match s.results m.id with
  | some r => some (s, [r], none)
  | none =>
    if m.xs.length ≤ m.ys.length ∧ m.xs.length ≤ m.ρs.length then
      let s1 : MulState q := { s with muls := updFn s.muls m.id (some m) }
      let om : OpenMulT q := ⟨m.id, cfg.index,
        (List.range m.xs.length).map (fun b =>
          ((m.xs.getD b default).mul (m.ys.getD b default)).add (m.ρs.getD b default))⟩
      match tryOpenMul cfg s1 om with
      | none => none
      | some (s2, or) => some (s2, or.toList, some om)
    else none

/-- The multiplier's input messages (`Reduce`'s switch). -/
inductive MulMsg (q : ℕ)
  | mul (m : MulMsgT q)
  | openMul (m : OpenMulT q)
deriving DecidableEq

/-- The id of a multiplier message. -/
def MulMsg.msgId {q : ℕ} : MulMsg q → ℕ
  | .mul m => m.id
  | .openMul m => m.id

/-- `multiplier.Reduce`, restricted to its observable effect on the state
and the emitted `Result` messages. -/
def mulReduce {q : ℕ} (cfg : MulCfg) (s : MulState q) (msg : MulMsg q) :
    Option (MulState q × List (MulResultT q)) :=
  match msg with
  | .mul m =>
    match mulFn cfg s m with
    | none => none
    | some (s2, out, _) => some (s2, out)
  | .openMul m =>
    match tryOpenMul cfg s m with
    | none => none
    | some (s2, or) => some (s2, or.toList)

/-- A run of the multiplier over a list of delivered messages, collecting
every emitted `Result`; `none` if some step panicked. -/
def runMul {q : ℕ} (cfg : MulCfg) (s : MulState q) :
    List (MulMsg q) → Option (MulState q × List (MulResultT q))
  | [] => some (s, [])
  | m :: rest =>
    match mulReduce cfg s m with
    | none => none
    | some (s1, out) =>
      match runMul cfg s1 rest with
      | none => none
      | some (s2, out2) => some (s2, out ++ out2)

/-! ## The VM dispatcher (`core/vm/vm.go`)

Only the three internal result receivers that the claims are about are
embedded.  Intent ids and message ids are abstract (`ℕ`) and the
`msgidToIID` / `msgidToPid` projections are identities on them; a
registered intent records for each of its single-slot channels whether
the slot is already occupied (an occupied slot means the non-blocking
send fails and the dispatcher reports `unavailable intent`).  Running
processes are opaque (`P`). -/

/-- An outstanding `process.Intent` as the dispatcher sees it: the kind
and the occupancy of its result slots. -/
inductive IntentD
  | intentToGenerateRn (σfull : Bool)
  | intentToGenerateRnZero (σfull : Bool)
  | intentToGenerateRnTuple (ρfull σfull : Bool)
  | intentToMultiplyD (retFull : Bool)
  | intentToOpenD (retFull : Bool)
deriving DecidableEq

/-- The dispatcher's mutable maps: outstanding intents by intent id and
active processes by process id. -/
structure VMState (P : Type) where
  intents : ℕ → Option IntentD
  procs : ℕ → Option P

/-- The dispatcher's observable reaction to an internal result message:
`task.NewError(unavailable intent)`, `task.NewError(unexpected intent
type)`, or the re-entry into `Exec` for the owning process. -/
inductive VMOut
  | errUnavailable
  | errUnexpectedIntent
  | reexec (pid : ℕ)
deriving DecidableEq

/-- An `rng.Result` message (ρ and σ share batches for an id). -/
structure RngResultT (q : ℕ) where
  id : ℕ
  ρs : List (Share q)
  σs : List (Share q)
deriving DecidableEq

/-- An `open.Result` message (the opened plaintext for an id). -/
structure OpenResultT where
  id : ℕ
  value : ℤ
deriving DecidableEq

/-- `VM.recvInternalRngResult`: without a registered intent it returns
`nil` untouched; otherwise it performs the non-blocking sends, deletes
the intent and re-enters `Exec` (its `default` branch panics: `none`). -/
def recvInternalRngResult {q : ℕ} {P : Type} (vm : VMState P)
    (m : RngResultT q) : Option (VMState P × Option VMOut) :=
  match vm.intents m.id with
  | none => some (vm, none)
  | some intent =>
    match intent with
    | .intentToGenerateRn σfull =>
      if σfull then some (vm, some .errUnavailable)
      else some ({ vm with intents := updFn vm.intents m.id none },
        some (.reexec m.id))
    | .intentToGenerateRnZero σfull =>
      if σfull then some (vm, some .errUnavailable)
      else some ({ vm with intents := updFn vm.intents m.id none },
        some (.reexec m.id))
    | .intentToGenerateRnTuple ρfull σfull =>
      if ρfull then some (vm, some .errUnavailable)
      else if σfull then
        let next := updFn vm.intents m.id (some (.intentToGenerateRnTuple true σfull))
        some ({ vm with intents := next }, some .errUnavailable)
      else some ({ vm with intents := updFn vm.intents m.id none },
        some (.reexec m.id))
    | _ => none

/-- `VM.recvInternalMulResult`: without a registered intent it returns
`nil` untouched; otherwise it delivers the shares, deletes the intent and
re-enters `Exec` (its `default` branch returns an error message). -/
def recvInternalMulResult {q : ℕ} {P : Type} (vm : VMState P)
    (m : MulResultT q) : VMState P × Option VMOut :=
  match vm.intents m.id with
  | none => (vm, none)
  | some intent =>
    match intent with
    | .intentToMultiplyD retFull =>
      if retFull then (vm, some .errUnavailable)
      else ({ vm with intents := updFn vm.intents m.id none },
        some (.reexec m.id))
    | _ => (vm, some .errUnexpectedIntent)

/-- `VM.recvInternalOpenResult`: without a registered intent it returns
`nil` untouched; otherwise it delivers the value, deletes the intent and
re-enters `Exec` (its `default` branch returns an error message). -/
def recvInternalOpenResult {P : Type} (vm : VMState P)
    (m : OpenResultT) : VMState P × Option VMOut :=
  match vm.intents m.id with
  | none => (vm, none)
  | some intent =>
    match intent with
    | .intentToOpenD retFull =>
      if retFull then (vm, some .errUnavailable)
      else ({ vm with intents := updFn vm.intents m.id none },
        some (.reexec m.id))
    | _ => (vm, some .errUnexpectedIntent)

/-- The dispatcher input messages the claims are about (`VM.Reduce`
routes each to the matching receiver). -/
inductive VMMsg (q : ℕ)
  | rngResult (m : RngResultT q)
  | mulResult (m : MulResultT q)
  | openResult (m : OpenResultT)
deriving DecidableEq

/-- `VM.Reduce`, restricted to the three internal result messages. -/
def vmReduce {q : ℕ} {P : Type} (vm : VMState P) (msg : VMMsg q) :
    Option (VMState P × Option VMOut) :=
  match msg with
  | .rngResult m => recvInternalRngResult vm m
  | .mulResult m => some (recvInternalMulResult vm m)
  | .openResult m => some (recvInternalOpenResult vm m)

/-- The id a dispatcher result message is correlated by. -/
def VMMsg.msgId {q : ℕ} : VMMsg q → ℕ
  | .rngResult m => m.id
  | .mulResult m => m.id
  | .openResult m => m.id

/-! ## Claim theorems -/

/-- C7 counterexample: for the scheme `(503, 251, 351, 8)` with
`s = t = 1` and `C = nil`, `C` differs from `Commit(s, t)` yet `Verify`
returns `ErrNilArguments`, not `ErrUnacceptableCommitment` — so the
claim's clause "returns UnacceptableCommitment whenever C differs from
Commit(s,t)" fails on the code. -/
theorem pedersen_verify_nil_counterexample :
    Pedersen.verify ⟨503, 251, 351, 8⟩ (some 1) (some 1) none =
        VerifyResult.errNilArguments ∧
      (none : Option ℕ) ≠ Pedersen.commit ⟨503, 251, 351, 8⟩ (some 1) (some 1) ∧
      Pedersen.verify ⟨503, 251, 351, 8⟩ (some 1) (some 1) none ≠
        VerifyResult.errUnacceptableCommitment := by
  refine ⟨rfl, ?_, ?_⟩ <;> decide

/-- C7 (amended): `Verify(s,t,C)` returns `NilArguments` whenever any of
`s`, `t`, `C` is absent; when all are present it returns OK exactly when
`C = Commit(s,t) = g^s·h^t mod p`, and `UnacceptableCommitment`
otherwise. -/
theorem pedersen_verify_characterization (ped : Pedersen) :
    (∀ s t c : Option ℕ, (s = none ∨ t = none ∨ c = none) →
      ped.verify s t c = VerifyResult.errNilArguments) ∧
    (∀ s t c : ℕ,
      (ped.verify (some s) (some t) (some c) = VerifyResult.ok ↔
        some c = ped.commit (some s) (some t)) ∧
      (some c ≠ ped.commit (some s) (some t) →
        ped.verify (some s) (some t) (some c) =
          VerifyResult.errUnacceptableCommitment)) := by
  constructor
  · rintro s t c (rfl | rfl | rfl)
    · rfl
    · cases s <;> rfl
    · cases s <;> cases t <;> rfl
  · intro s t c
    constructor
    · unfold Pedersen.verify Pedersen.commit
      constructor
      · intro h
        by_cases hc : ped.g ^ s * ped.h ^ t % ped.p = c
        · simp only [hc]
        · simp [hc] at h
      · intro h
        have hc : ped.g ^ s * ped.h ^ t % ped.p = c := by
          simpa using h.symm
        simp [hc]
    · intro h
      unfold Pedersen.verify
      have hc : ¬ ped.g ^ s * ped.h ^ t % ped.p = c := by
        intro hc
        exact h (by simp [Pedersen.commit, hc])
      simp [hc]

/-- C7 witness: the characterization applied to the concrete scheme
`(503, 251, 351, 8)`: a `nil` argument yields `ErrNilArguments`, and the
commitment `g·h mod p = 293` of `(1, 1)` verifies OK. -/
theorem pedersen_verify_characterization_witness :
    Pedersen.verify ⟨503, 251, 351, 8⟩ none (some 1) (some 1) =
        VerifyResult.errNilArguments ∧
      Pedersen.verify ⟨503, 251, 351, 8⟩ (some 1) (some 1) (some 293) =
        VerifyResult.ok :=
  ⟨(pedersen_verify_characterization ⟨503, 251, 351, 8⟩).1 none (some 1) (some 1)
      (Or.inl rfl),
    ((pedersen_verify_characterization ⟨503, 251, 351, 8⟩).2 1 1 293).1.mpr
      (by decide)⟩

/-- C2 counterexample: a program whose `pc` (= 1) reached the code length
with a non-empty stack; `Exec` returns the code-overflow `IntentToError`
— an error intent, not an exit with the stacked values (the `program`
package defines no exit intent at all). -/
theorem prog_exec_code_overflow_counterexample :
    Prog.exec (q := 5) ⟨[Value.ValuePublic 7], [Inst.InstAdd], 1⟩ =
        some (⟨[Value.ValuePublic 7], [Inst.InstAdd], 1⟩,
          NotReady (some (.IntentToError (.codeOverflow 1)))) ∧
      ([Value.ValuePublic 7] : List (Value 5)) ≠ [] ∧
      Intent.isError (q := 5) (.IntentToError (.codeOverflow 1)) = true := by
  refine ⟨rfl, ?_, rfl⟩
  decide

/-- C2 (amended): whenever the program counter reaches or exceeds the
code length — regardless of the stack contents — `Exec` returns
`NotReady` carrying the code-overflow `IntentToError`. -/
theorem prog_exec_code_overflow {q : ℕ} (prog : Prog q)
    (h : prog.code.length ≤ prog.pc) :
    prog.exec = some (prog, NotReady (some (.IntentToError (.codeOverflow prog.pc)))) := by
  unfold Prog.exec
  rw [List.get?_eq_none.mpr h]

/-- C2 witness: the amended theorem applied to the concrete overflowing
program of the counterexample. -/
theorem prog_exec_code_overflow_witness :
    ([Inst.InstAdd] : List (Inst 5)).length ≤ 1 ∧
      Prog.exec (q := 5) ⟨[Value.ValuePublic 7], [Inst.InstAdd], 1⟩ =
        some (⟨[Value.ValuePublic 7], [Inst.InstAdd], 1⟩,
          NotReady (some (.IntentToError (.codeOverflow 1)))) :=
  ⟨by decide, prog_exec_code_overflow ⟨[Value.ValuePublic 7], [Inst.InstAdd], 1⟩
    (by decide)⟩

/-- C5 (code bug): wrong-typed `Mul` and `Open` operands do produce
`IntentToError` as the claim says (first two conjuncts), but `Add` with a
`ValuePrivateRn` left operand hits the source's
`default: panic("unimplemented")` branch and panics (`none`) instead of
producing `IntentToError` — contradicting the claim for `Add`. -/
theorem prog_exec_add_privatern_panics :
    Prog.exec (q := 5) ⟨[Value.ValuePublic 3], [Inst.InstMul none false ⟨0, 0⟩], 0⟩ =
        some (⟨[], [Inst.InstMul none false ⟨0, 0⟩], 0⟩,
          NotReady (some (.IntentToError
            (.unexpectedValue .publicTag .privateRnTag 0)))) ∧
      Prog.exec (q := 5) ⟨[Value.ValuePublic 3], [Inst.InstOpen none false 0], 0⟩ =
        some (⟨[], [Inst.InstOpen none false 0], 0⟩,
          NotReady (some (.IntentToError
            (.unexpectedValue .publicTag .privateTag 0)))) ∧
      Prog.exec (q := 5)
        ⟨[Value.ValuePublic 1, Value.ValuePrivateRn ⟨1, 1⟩ ⟨1, 1⟩],
          [Inst.InstAdd], 0⟩ = none := by
  refine ⟨rfl, rfl, rfl⟩

/-- C9: an `rng.Result`, `mul.Result` or `open.Result` whose id has no
registered intent makes `Reduce` return `nil` with the program and intent
maps (the whole dispatcher state) unchanged. -/
theorem vm_unregistered_result_noop {q : ℕ} {P : Type} (vm : VMState P)
    (msg : VMMsg q) (h : vm.intents msg.msgId = none) :
    vmReduce vm msg = some (vm, none) := by
  cases msg with
  | rngResult m =>
    simp only [vmReduce, recvInternalRngResult]
    rw [show m.id = VMMsg.msgId (q := q) (.rngResult m) from rfl, h]
  | mulResult m =>
    simp only [vmReduce, recvInternalMulResult]
    rw [show m.id = VMMsg.msgId (q := q) (.mulResult m) from rfl, h]
  | openResult m =>
    simp only [vmReduce, recvInternalOpenResult]
    rw [show m.id = VMMsg.msgId (q := q) (.openResult m) from rfl, h]

/-- C9 witness: the empty dispatcher given a `mul.Result` for id 7
returns `nil` and keeps its state. -/
theorem vm_unregistered_result_noop_witness :
    vmReduce (q := 5) (P := Unit) ⟨fun _ => none, fun _ => none⟩
        (.mulResult ⟨7, []⟩) =
      some (⟨fun _ => none, fun _ => none⟩, none) :=
  vm_unregistered_result_noop ⟨fun _ => none, fun _ => none⟩ (.mulResult ⟨7, []⟩) rfl

/-- A successful `shamir.Join` implies a non-empty input with pairwise
distinct share indices. -/
theorem joinOpt_isSome_nodup {q : ℕ} {shares : List (Share q)}
    (h : (joinOpt shares).isSome) :
    shares ≠ [] ∧ (shares.map Share.index).Nodup := by
  unfold joinOpt at h
  by_cases h1 : shares.isEmpty
  · simp [h1] at h
  · refine ⟨by simpa [List.isEmpty_iff] using h1, ?_⟩
    by_cases h2 : (shares.map Share.index).Nodup
    · exact h2
    · simp [h1, h2] at h

/-- C10: once a `Result` is cached for an id, a later `Mul` for that id
returns exactly the cached `Result` and leaves the whole state untouched,
and a later `OpenMul` for that id is stored but never produces a second
`Result`. -/
theorem mul_cached_result_idempotent {q : ℕ} (cfg : MulCfg) (s : MulState q)
    (idn : ℕ) (r : MulResultT q) (hr : s.results idn = some r) :
    (∀ m : MulMsgT q, m.id = idn → mulReduce cfg s (.mul m) = some (s, [r])) ∧
    (∀ m : OpenMulT q, m.id = idn →
      mulReduce cfg s (.openMul m) =
        some ({ s with opens := updFn s.opens idn (insertOpen (s.opens idn) m) },
          [])) := by
  constructor
  · intro m hm
    subst hm
    simp only [mulReduce, mulFn, hr]
  · intro m hm
    subst hm
    simp only [mulReduce, tryOpenMul, hr]
    by_cases hlen : (insertOpen (s.opens m.id) m).length < cfg.k
    · simp [hlen]
    · cases hmul : s.muls m.id with
      | none => simp [hlen, hmul]
      | some mm => simp [hlen, hmul]

/-- C10 witness: the claim applied to a concrete state caching a result
for id 0: the `Mul` returns the cached result, the `OpenMul` is absorbed
without emitting. -/
theorem mul_cached_result_idempotent_witness :
    mulReduce (q := 5) ⟨1, 3, 2⟩
        ⟨fun _ => none, fun _ => [], updFn (fun _ => none) 0 (some ⟨0, []⟩)⟩
        (.mul ⟨0, [], [], [], []⟩) =
      some (⟨fun _ => none, fun _ => [],
        updFn (fun _ => none) 0 (some ⟨0, []⟩)⟩, [⟨0, []⟩]) :=
  (mul_cached_result_idempotent ⟨1, 3, 2⟩
    ⟨fun _ => none, fun _ => [], updFn (fun _ => none) 0 (some ⟨0, []⟩)⟩
    0 ⟨0, []⟩ rfl).1 ⟨0, [], [], [], []⟩ rfl

/-- When `tryOpenMul` fires a result, the stored openings met the quorum
and every joined column passed `shamir.Join`. -/
theorem tryOpenMul_fire_conditions {q : ℕ} (cfg : MulCfg) (s : MulState q)
    (m : OpenMulT q) (s2 : MulState q) (r : MulResultT q)
    (hstep : tryOpenMul cfg s m = some (s2, some r)) :
    cfg.k ≤ (insertOpen (s.opens m.id) m).length ∧
    ∀ b < m.shares.length,
      (joinOpt (openColumn (insertOpen (s.opens m.id) m) b)).isSome := by
  simp only [tryOpenMul] at hstep
  split at hstep
  · simp at hstep
  · rename_i hlen
    split at hstep
    · simp at hstep
    · split at hstep
      · simp at hstep
      · split at hstep
        · exact absurd hstep (by simp)
        · split at hstep
          · split at hstep
            · rename_i hjoin
              exact ⟨Nat.le_of_not_lt hlen, hjoin⟩
            · exact absurd hstep (by simp)
          · exact absurd hstep (by simp)

/-- `insertOpen` with equal sender keys: the second write wins outright. -/
theorem insertOpen_last_wins {q : ℕ} (l : List (ℕ × OpenMulT q)) :
    ∀ m m2 : OpenMulT q, m.From = m2.From →
      insertOpen (insertOpen l m) m2 = insertOpen l m2 := by
  induction l with
  | nil =>
    intro m m2 hfrom
    simp [insertOpen, hfrom]
  | cons so rest ih =>
    intro m m2 hfrom
    obtain ⟨s, o⟩ := so
    by_cases h1 : m.From < s
    · have h2 : m2.From < s := hfrom ▸ h1
      simp only [insertOpen, if_pos h1, if_pos h2]
      have hlt : ¬ m2.From < m.From := by omega
      have heq : m2.From = m.From := hfrom.symm
      simp [insertOpen, hlt, heq, h1, h2]
    · by_cases h2 : m.From = s
      · have h3 : ¬ m2.From < s := by omega
        have h4 : m2.From = s := hfrom ▸ h2
        simp only [insertOpen, if_neg h1, if_pos h2]
        have hlt : ¬ m2.From < m.From := by omega
        have heq : m2.From = m.From := hfrom.symm
        simp [insertOpen, hlt, heq, h1, h2, h3, h4]
      · have h3 : ¬ m2.From < s := by omega
        have h4 : ¬ m2.From = s := by omega
        simp only [insertOpen, if_neg h1, if_neg h2, if_neg h3, if_neg h4]
        rw [ih m m2 hfrom]

/-- `insertOpen` for a sender already present in a sender-sorted map does
not grow the map: the duplicate is counted once. -/
theorem insertOpen_mem_length {q : ℕ} (l : List (ℕ × OpenMulT q))
    (m : OpenMulT q) (hsorted : (l.map Prod.fst).Pairwise (· < ·))
    (hmem : m.From ∈ l.map Prod.fst) :
    (insertOpen l m).length = l.length := by
  induction l with
  | nil => simp at hmem
  | cons so rest ih =>
    obtain ⟨s, o⟩ := so
    simp only [List.map_cons, List.pairwise_cons] at hsorted
    by_cases h1 : m.From < s
    · exfalso
      rcases List.mem_cons.mp hmem with h | h
      · omega
      · have := hsorted.1 m.From h
        omega
    · by_cases h2 : m.From = s
      · simp [insertOpen, h1, h2]
      · have hmem2 : m.From ∈ rest.map Prod.fst := by
          rcases List.mem_cons.mp hmem with h | h
          · exact absurd h h2
          · exact h
        simp only [insertOpen, if_neg h1, if_neg h2, List.length_cons]
        rw [ih hsorted.2 hmem2]

/-- C4: (a) whenever an `OpenMul` — in particular a forged one whose
`From` duplicates a real participant, whatever share indices it carries —
makes the multiplier emit a `Result`, the stored openings numbered at
least `k` and every interpolated column consisted of at least `k` shares
with pairwise distinct indices (a bad column makes `shamir.Join` fail and
the task panic instead of emitting); (b) a duplicate `OpenMul` from the
same sender is idempotent: the last write wins and, in a sender-sorted
map, it does not increase the quorum count. -/
theorem mul_forged_openmul_safety {q : ℕ} :
    (∀ (cfg : MulCfg) (s : MulState q) (m : OpenMulT q) (s2 : MulState q)
        (out : List (MulResultT q)),
      mulReduce cfg s (.openMul m) = some (s2, out) → out ≠ [] →
      cfg.k ≤ (insertOpen (s.opens m.id) m).length ∧
      ∀ b < m.shares.length,
        cfg.k ≤ (openColumn (insertOpen (s.opens m.id) m) b).length ∧
        ((openColumn (insertOpen (s.opens m.id) m) b).map Share.index).Nodup) ∧
    (∀ (l : List (ℕ × OpenMulT q)) (m m2 : OpenMulT q),
      (m.From = m2.From → insertOpen (insertOpen l m) m2 = insertOpen l m2) ∧
      ((l.map Prod.fst).Pairwise (· < ·) → m.From ∈ l.map Prod.fst →
        (insertOpen l m).length = l.length)) := by
  constructor
  · intro cfg s m s2 out hstep hout
    have hfire : ∃ r, tryOpenMul cfg s m = some (s2, some r) := by
      simp only [mulReduce] at hstep
      cases htry : tryOpenMul cfg s m with
      | none => rw [htry] at hstep; exact absurd hstep (by simp)
      | some pr =>
        obtain ⟨s3, or⟩ := pr
        rw [htry] at hstep
        have hpair := Option.some.inj hstep
        cases or with
        | none =>
          have hnil : out = [] := by simpa using (congrArg Prod.snd hpair).symm
          exact absurd hnil hout
        | some r =>
          have hs : s3 = s2 := congrArg Prod.fst hpair
          exact ⟨r, by rw [hs]⟩
    obtain ⟨r, htry⟩ := hfire
    obtain ⟨hk, hjoin⟩ := tryOpenMul_fire_conditions cfg s m s2 r htry
    refine ⟨hk, fun b hb => ?_⟩
    obtain ⟨hne, hnodup⟩ := joinOpt_isSome_nodup (hjoin b hb)
    refine ⟨?_, hnodup⟩
    have : (openColumn (insertOpen (s.opens m.id) m) b).length =
        (insertOpen (s.opens m.id) m).length := by
      simp [openColumn]
    omega
  · intro l m m2
    exact ⟨insertOpen_last_wins l m m2, insertOpen_mem_length l m⟩

/-- C4 witness: the safety statement applied to a concrete firing step
(quorum k = 1, forged sender 2 already present), and idempotence of a
duplicate write for sender 2. -/
theorem mul_forged_openmul_safety_witness :
    (1 ≤ (insertOpen (q := 5) [(2, ⟨0, 2, [⟨2, 1⟩]⟩)] ⟨0, 2, [⟨2, 4⟩]⟩).length ∧
      ∀ b < 1,
        1 ≤ (openColumn (insertOpen (q := 5) [(2, ⟨0, 2, [⟨2, 1⟩]⟩)]
              ⟨0, 2, [⟨2, 4⟩]⟩) b).length ∧
        ((openColumn (insertOpen (q := 5) [(2, ⟨0, 2, [⟨2, 1⟩]⟩)]
              ⟨0, 2, [⟨2, 4⟩]⟩) b).map Share.index).Nodup) ∧
    insertOpen (insertOpen (q := 5) [] ⟨0, 2, [⟨2, 1⟩]⟩) ⟨0, 2, [⟨2, 4⟩]⟩ =
      insertOpen [] ⟨0, 2, [⟨2, 4⟩]⟩ := by
  constructor
  · exact (mul_forged_openmul_safety.1 ⟨1, 3, 1⟩
      ⟨updFn (fun _ => none) 0 (some ⟨0, [⟨1, 2⟩], [⟨1, 3⟩], [⟨1, 0⟩], [⟨1, 0⟩]⟩),
        updFn (fun _ => []) 0 [(2, ⟨0, 2, [⟨2, 1⟩]⟩)], fun _ => none⟩
      ⟨0, 2, [⟨2, 4⟩]⟩ _ _ rfl (by decide))
  · exact (mul_forged_openmul_safety.2 [] ⟨0, 2, [⟨2, 1⟩]⟩ ⟨0, 2, [⟨2, 4⟩]⟩).1 rfl

/-- C6: for each suspending instruction (Rand, Mul, Open): on first entry
the interpreter stores fresh empty single-slot sinks into the instruction
in place and returns `NotReady` with the corresponding intent; a re-entry
with some awaited value still unavailable returns `NotReady(nil)` without
touching stack or pc; a re-entry with every awaited value available
pushes the result and increments pc. -/
theorem prog_exec_suspension {q : ℕ} (prog : Prog q) :
    (∀ rc sc rr sr rho sigma,
      prog.code.get? prog.pc = some (.InstRand rc sc rr sr rho sigma) →
      rc = none ∨ sc = none →
      prog.exec = some ({ prog with
        code := prog.code.set prog.pc
          (.InstRand (some none) (some none) rr sr rho sigma) },
        NotReady (some .IntentToGenRn))) ∧
    (∀ rcv scv rr sr rho sigma,
      prog.code.get? prog.pc = some (.InstRand (some rcv) (some scv) rr sr rho sigma) →
      (rr = false ∧ rcv = none) ∨
        ((rr = true ∨ rcv.isSome) ∧ sr = false ∧ scv = none) →
      ∃ code2, prog.exec = some ({ prog with code := code2 }, NotReady none)) ∧
    (∀ rcv scv rr sr rho sigma,
      prog.code.get? prog.pc = some (.InstRand (some rcv) (some scv) rr sr rho sigma) →
      (rr = true ∨ rcv.isSome) → (sr = true ∨ scv.isSome) →
      ∃ code2, prog.exec = some ({ prog with
        code := code2
        stack := Value.ValuePrivateRn (if rr then rho else rcv.getD default)
          (if sr then sigma else scv.getD default) :: prog.stack
        pc := prog.pc + 1 }, Ready)) ∧
    (∀ rr ret ρ σ y x rest,
      prog.code.get? prog.pc = some (.InstMul none rr ret) →
      prog.stack = Value.ValuePrivateRn ρ σ :: Value.ValuePrivate y ::
        Value.ValuePrivate x :: rest →
      prog.exec = some ({ prog with
        stack := rest
        code := prog.code.set prog.pc (.InstMul (some none) rr ret) },
        NotReady (some (.IntentToMultiply x y ρ σ)))) ∧
    (∀ ret,
      prog.code.get? prog.pc = some (.InstMul (some none) false ret) →
      prog.exec = some (prog, NotReady none)) ∧
    (∀ rcv rr ret,
      prog.code.get? prog.pc = some (.InstMul (some rcv) rr ret) →
      (rr = true ∨ rcv.isSome) →
      ∃ code2, prog.exec = some ({ prog with
        code := code2
        stack := Value.ValuePrivate (if rr then ret else rcv.getD default) ::
          prog.stack
        pc := prog.pc + 1 }, Ready)) ∧
    (∀ rr ret v rest,
      prog.code.get? prog.pc = some (.InstOpen none rr ret) →
      prog.stack = Value.ValuePrivate v :: rest →
      prog.exec = some ({ prog with
        stack := rest
        code := prog.code.set prog.pc (.InstOpen (some none) rr ret) },
        NotReady (some (.IntentToOpen v)))) ∧
    (∀ ret,
      prog.code.get? prog.pc = some (.InstOpen (some none) false ret) →
      prog.exec = some (prog, NotReady none)) ∧
    (∀ rcv rr ret,
      prog.code.get? prog.pc = some (.InstOpen (some rcv) rr ret) →
      (rr = true ∨ rcv.isSome) →
      ∃ code2, prog.exec = some ({ prog with
        code := code2
        stack := Value.ValuePublic (if rr then ret else rcv.getD default) ::
          prog.stack
        pc := prog.pc + 1 }, Ready)) := by
  refine ⟨?_, ?_, ?_, ?_, ?_, ?_, ?_, ?_, ?_⟩
  · intro rc sc rr sr rho sigma hcode hnil
    have hx : prog.exec = some (execInstRand prog rc sc rr sr rho sigma) := by
      unfold Prog.exec; rw [hcode]
    rcases hnil with rfl | rfl
    · rw [hx]; rfl
    · cases rc with
      | none => rw [hx]; rfl
      | some rcv => rw [hx]; rfl
  · intro rcv scv rr sr rho sigma hcode hcond
    have hx : prog.exec =
        some (execInstRand prog (some rcv) (some scv) rr sr rho sigma) := by
      unfold Prog.exec; rw [hcode]
    rcases hcond with ⟨hrr, hrcv⟩ | ⟨hav, hsr, hscv⟩
    · subst hrr; subst hrcv
      exact ⟨prog.code, by rw [hx]; rfl⟩
    · subst hsr; subst hscv
      rcases hav with hrr | hrcv
      · subst hrr
        exact ⟨prog.code, by rw [hx]; rfl⟩
      · rcases Option.isSome_iff_exists.mp hrcv with ⟨v, rfl⟩
        cases rr with
        | true => exact ⟨prog.code, by rw [hx]; rfl⟩
        | false => exact ⟨_, by rw [hx]; rfl⟩
  · intro rcv scv rr sr rho sigma hcode havρ havσ
    have hx : prog.exec =
        some (execInstRand prog (some rcv) (some scv) rr sr rho sigma) := by
      unfold Prog.exec; rw [hcode]
    cases rr with
    | true =>
      cases sr with
      | true => exact ⟨prog.code, by rw [hx]; rfl⟩
      | false =>
        rcases Option.isSome_iff_exists.mp (havσ.resolve_left (by simp)) with ⟨σv, rfl⟩
        exact ⟨_, by rw [hx]; rfl⟩
    | false =>
      rcases Option.isSome_iff_exists.mp (havρ.resolve_left (by simp)) with ⟨ρv, rfl⟩
      cases sr with
      | true => exact ⟨_, by rw [hx]; rfl⟩
      | false =>
        rcases Option.isSome_iff_exists.mp (havσ.resolve_left (by simp)) with ⟨σv, rfl⟩
        exact ⟨_, by rw [hx]; rfl⟩
  · intro rr ret ρ σ y x rest hcode hstack
    have hx : prog.exec = some (execInstMul prog none rr ret) := by
      unfold Prog.exec; rw [hcode]
    rw [hx]
    unfold execInstMul
    rw [hstack]
    rfl
  · intro ret hcode
    have hx : prog.exec = some (execInstMul prog (some none) false ret) := by
      unfold Prog.exec; rw [hcode]
    rw [hx]; rfl
  · intro rcv rr ret hcode hav
    have hx : prog.exec = some (execInstMul prog (some rcv) rr ret) := by
      unfold Prog.exec; rw [hcode]
    cases rr with
    | true => exact ⟨prog.code, by rw [hx]; rfl⟩
    | false =>
      rcases Option.isSome_iff_exists.mp (hav.resolve_left (by simp)) with ⟨v, rfl⟩
      exact ⟨_, by rw [hx]; rfl⟩
  · intro rr ret v rest hcode hstack
    have hx : prog.exec = some (execInstOpen prog none rr ret) := by
      unfold Prog.exec; rw [hcode]
    rw [hx]
    unfold execInstOpen
    rw [hstack]
    rfl
  · intro ret hcode
    have hx : prog.exec = some (execInstOpen prog (some none) false ret) := by
      unfold Prog.exec; rw [hcode]
    rw [hx]; rfl
  · intro rcv rr ret hcode hav
    have hx : prog.exec = some (execInstOpen prog (some rcv) rr ret) := by
      unfold Prog.exec; rw [hcode]
    cases rr with
    | true => exact ⟨prog.code, by rw [hx]; rfl⟩
    | false =>
      rcases Option.isSome_iff_exists.mp (hav.resolve_left (by simp)) with ⟨v, rfl⟩
      exact ⟨_, by rw [hx]; rfl⟩

/-- The polynomial with coefficient list `cs` (low-order first), used to
reason about `evalPoly` through Mathlib's Lagrange interpolation. -/
noncomputable def toPoly {q : ℕ} (cs : List (ZMod q)) : Polynomial (ZMod q) :=
  match cs with
  | [] => 0
  | c :: rest => Polynomial.C c + Polynomial.X * toPoly rest

theorem toPoly_eval {q : ℕ} (cs : List (ZMod q)) (xv : ZMod q) :
    (toPoly cs).eval xv = evalPoly cs xv := by
  induction cs with
  | nil => simp [toPoly, evalPoly]
  | cons c rest ih => simp [toPoly, evalPoly, ih]

theorem toPoly_degree_lt {q : ℕ} [Fact q.Prime] (cs : List (ZMod q)) :
    (toPoly cs).degree < (cs.length : WithBot ℕ) := by
  induction cs with
  | nil =>
    simp only [toPoly, Polynomial.degree_zero, List.length_nil, Nat.cast_zero]
    exact WithBot.bot_lt_coe 0
  | cons c rest ih =>
    simp only [toPoly, List.length_cons]
    refine lt_of_le_of_lt (Polynomial.degree_add_le _ _) ?_
    rw [max_lt_iff]
    constructor
    · refine lt_of_le_of_lt Polynomial.degree_C_le ?_
      exact_mod_cast Nat.succ_pos rest.length
    · refine lt_of_le_of_lt (Polynomial.degree_mul_le _ _) ?_
      rw [Polynomial.degree_X]
      have hcast : ((rest.length + 1 : ℕ) : WithBot ℕ) =
          (1 : WithBot ℕ) + (rest.length : WithBot ℕ) := by
        push_cast
        rw [add_comm]
      rw [hcast]
      exact WithBot.add_lt_add_left (by simp) ih

/-- The spec-modelled `shamir.Join` applied to at least `deg + 1` shares
of a polynomial with distinct evaluation points recovers the constant
coefficient: Lagrange interpolation at 0. -/
theorem joinOpt_eq_of_poly {q : ℕ} [Fact q.Prime] (shares : List (Share q))
    (coeffs : List (ZMod q)) (hne : shares ≠ [])
    (hlen : coeffs.length ≤ shares.length)
    (hval : ∀ sh ∈ shares, sh.value = evalPoly coeffs sh.x)
    (hdist : (shares.map Share.x).Nodup) :
    joinOpt shares = some (evalPoly coeffs 0) := by
  classical
  have hxmap : shares.map Share.x =
      (shares.map Share.index).map (Nat.cast : ℕ → ZMod q) := by
    rw [List.map_map]; rfl
  have hidx : (shares.map Share.index).Nodup := by
    rw [hxmap] at hdist
    exact hdist.of_map _
  have hnodup : shares.Nodup := hdist.of_map _
  have hinj : ∀ a ∈ shares, ∀ b ∈ shares, a.x = b.x → a = b :=
    List.inj_on_of_nodup_map hdist
  have hxne : ∀ a ∈ shares, ∀ b ∈ shares, a ≠ b → b.x - a.x ≠ 0 := by
    intro a ha b hb hab
    exact sub_ne_zero_of_ne (fun hx => hab (hinj b hb a ha hx).symm)
  have hden : ∀ sh ∈ shares, lagDen shares.toFinset sh ≠ 0 := by
    intro sh hsh
    unfold lagDen
    rw [Finset.prod_ne_zero_iff]
    intro t ht
    rw [Finset.mem_erase, List.mem_toFinset] at ht
    exact hxne sh hsh t ht.2 (Ne.symm ht.1)
  have hnover : ¬ ∃ sh ∈ shares, lagDen shares.toFinset sh = 0 := by
    rintro ⟨sh, hsh, h0⟩
    exact hden sh hsh h0
  unfold joinOpt
  rw [if_neg (by simpa [List.isEmpty_iff] using hne), if_neg (by simpa using hidx),
    if_neg hnover]
  congr 1
  -- the Lagrange interpolation identity
  set s' : Finset (Share q) := shares.toFinset with hs'
  have hmem : ∀ sh, sh ∈ s' ↔ sh ∈ shares := by
    intro sh; simp [hs']
  have hcard : s'.card = shares.length := by
    rw [hs']
    exact List.toFinset_card_of_nodup hnodup
  have hinjon : Set.InjOn Share.x (s' : Set (Share q)) := by
    intro a ha b hb hx
    rw [Finset.mem_coe, hmem] at ha hb
    exact hinj a ha b hb hx
  have hdeg : (toPoly coeffs).degree < (s'.card : WithBot ℕ) := by
    refine lt_of_lt_of_le (toPoly_degree_lt coeffs) ?_
    exact_mod_cast Nat.cast_le.mpr (hcard ▸ hlen)
  have hF := Lagrange.eq_interpolate (v := Share.x) (f := toPoly coeffs) hinjon
    (by simpa using hdeg)
  have heval0 : evalPoly coeffs 0 = (toPoly coeffs).eval 0 := (toPoly_eval _ _).symm
  rw [heval0, hF, Lagrange.interpolate_apply, Polynomial.eval_finset_sum]
  refine Finset.sum_congr rfl ?_
  intro sh hsh
  have hshl : sh ∈ shares := (hmem sh).mp hsh
  have hbasis : Polynomial.eval 0 (Lagrange.basis s' Share.x sh) =
      lagNum s' sh * (lagDen s' sh)⁻¹ := by
    rw [show Lagrange.basis s' Share.x sh =
        ∏ t ∈ s'.erase sh, Lagrange.basisDivisor sh.x t.x from rfl,
      Polynomial.eval_prod]
    have hfac : ∀ t ∈ s'.erase sh,
        Polynomial.eval 0 (Lagrange.basisDivisor sh.x t.x) =
          t.x * (t.x - sh.x)⁻¹ := by
      intro t ht
      rw [Lagrange.basisDivisor]
      simp only [Polynomial.eval_mul, Polynomial.eval_C, Polynomial.eval_sub,
        Polynomial.eval_X, zero_sub]
      rw [show sh.x - t.x = -(t.x - sh.x) by ring, inv_neg]
      ring
    rw [Finset.prod_congr rfl hfac, Finset.prod_mul_distrib]
    unfold lagNum lagDen
    rw [Finset.prod_inv_distrib]
  rw [Polynomial.eval_mul, Polynomial.eval_C, toPoly_eval, ← hval sh hshl,
    hbasis, zinv_eq_inv, mul_assoc]

/-- Horner evaluation with natural-number arithmetic on the canonical
representatives, used to track exponents of the commitment identity. -/
def natEval {q : ℕ} (cs : List (ZMod q)) (i : ℕ) : ℕ :=
  match cs with
  | [] => 0
  | c :: rest => c.val + i * natEval rest i

theorem natEval_cast {q : ℕ} [NeZero q] (cs : List (ZMod q)) (i : ℕ) :
    ((natEval cs i : ℕ) : ZMod q) = evalPoly cs (i : ZMod q) := by
  induction cs with
  | nil => simp [natEval, evalPoly]
  | cons c rest ih =>
    simp only [natEval, evalPoly]
    push_cast
    rw [ih, ZMod.natCast_val, ZMod.cast_id]

/-- If `g^q = 1` then `g`-powers only depend on the exponent mod `q`. -/
theorem pow_congr_of_pow_eq_one {p : ℕ} (g : ZMod p) {q : ℕ} (hg : g ^ q = 1)
    (a b : ℕ) (hab : a % q = b % q) : g ^ a = g ^ b := by
  have hmod : ∀ c : ℕ, g ^ c = g ^ (c % q) := by
    intro c
    conv_lhs => rw [← Nat.div_add_mod c q]
    rw [pow_add, pow_mul, hg, one_pow, one_mul]
  rw [hmod a, hmod b, hab]

/-- Exponent congruence from equality of the field elements. -/
theorem pow_congr_of_cast_eq {p q : ℕ} [NeZero q] (g : ZMod p) (hg : g ^ q = 1)
    (a b : ℕ) (hab : (a : ZMod q) = (b : ZMod q)) : g ^ a = g ^ b :=
  pow_congr_of_pow_eq_one g hg a b (ZMod.natCast_eq_natCast_iff a b q |>.mp hab)

/-- The commitment product of a `commitVec` collapses to a pair of
`g`/`h` powers with Horner exponents. -/
theorem commitProd_commitVec {p q : ℕ} (g h : ZMod p) :
    ∀ (sc rc : List (ZMod q)), sc.length = rc.length → ∀ i j : ℕ,
      commitProd i (commitVec g h sc rc) j =
        g ^ (i ^ j * natEval sc i) * h ^ (i ^ j * natEval rc i) := by
  intro sc
  induction sc with
  | nil =>
    intro rc hlen i j
    cases rc with
    | nil => simp [commitVec, commitProd, natEval]
    | cons b rc => simp at hlen
  | cons a sc ih =>
    intro rc hlen i j
    cases rc with
    | nil => simp at hlen
    | cons b rc =>
      simp only [List.length_cons, Nat.succ.injEq] at hlen
      simp only [commitVec, List.zipWith_cons_cons, commitProd, natEval]
      rw [show List.zipWith (fun x y => g ^ x.val * h ^ y.val) sc rc =
          commitVec g h sc rc from rfl]
      rw [ih rc hlen i (j + 1)]
      rw [mul_pow, ← pow_mul, ← pow_mul]
      rw [show g ^ (a.val * i ^ j) * h ^ (b.val * i ^ j) *
            (g ^ (i ^ (j + 1) * natEval sc i) * h ^ (i ^ (j + 1) * natEval rc i)) =
          g ^ (a.val * i ^ j) * g ^ (i ^ (j + 1) * natEval sc i) *
            (h ^ (b.val * i ^ j) * h ^ (i ^ (j + 1) * natEval rc i)) by ring]
      rw [← pow_add, ← pow_add]
      congr 1
      · congr 1
        ring
      · congr 1
        ring

/-- Every share produced by the modelled `Share(ped, s, n, k)` passes
`Verify` when `g` and `h` have order dividing `q`. -/
theorem vverify_vshareOne {p q : ℕ} [NeZero q] (g h : ZMod p)
    (hg : g ^ q = 1) (hh : h ^ q = 1) (sc rc : List (ZMod q))
    (hlen : sc.length = rc.length) (hne : sc ≠ []) (i : ℕ) :
    vverify g h (vshareOne g h sc rc i) = some true := by
  unfold vverify vshareOne
  have hcne : ¬ (commitVec g h sc rc).isEmpty := by
    cases sc with
    | nil => exact absurd rfl hne
    | cons a sc =>
      cases rc with
      | nil => simp at hlen
      | cons b rc => simp [commitVec]
  rw [if_neg hcne]
  simp only [Option.some.injEq, decide_eq_true_eq]
  rw [commitProd_commitVec g h sc rc hlen i 0]
  simp only [pow_zero, one_mul]
  congr 1
  · exact pow_congr_of_cast_eq g hg _ _
      (by rw [natEval_cast, ZMod.natCast_val, ZMod.cast_id])
  · exact pow_congr_of_cast_eq h hh _ _
      (by rw [natEval_cast, ZMod.natCast_val, ZMod.cast_id])

/-- Pointwise products of commitment vectors multiply the commitment
products (the homomorphic step of verifiable-share addition). -/
theorem commitProd_zipWith_mul {p : ℕ} (i : ℕ) :
    ∀ (c1 c2 : List (ZMod p)), c1.length = c2.length → ∀ j : ℕ,
      commitProd i (List.zipWith (· * ·) c1 c2) j =
        commitProd i c1 j * commitProd i c2 j := by
  intro c1
  induction c1 with
  | nil =>
    intro c2 hlen j
    cases c2 with
    | nil => simp [commitProd]
    | cons b c2 => simp at hlen
  | cons a c1 ih =>
    intro c2 hlen j
    cases c2 with
    | nil => simp at hlen
    | cons b c2 =>
      simp only [List.length_cons, Nat.succ.injEq] at hlen
      simp only [List.zipWith_cons_cons, commitProd]
      rw [ih c2 hlen (j + 1), mul_pow]
      ring

/-- Componentwise `evalPoly` addition corresponds to coefficientwise
addition of equal-length lists. -/
theorem evalPoly_zipWith_add {q : ℕ} :
    ∀ (c1 c2 : List (ZMod q)), c1.length = c2.length → ∀ xv : ZMod q,
      evalPoly (List.zipWith (· + ·) c1 c2) xv = evalPoly c1 xv + evalPoly c2 xv := by
  intro c1
  induction c1 with
  | nil =>
    intro c2 hlen xv
    cases c2 with
    | nil => simp [evalPoly]
    | cons b c2 => simp at hlen
  | cons a c1 ih =>
    intro c2 hlen xv
    cases c2 with
    | nil => simp at hlen
    | cons b c2 =>
      simp only [List.length_cons, Nat.succ.injEq] at hlen
      simp only [List.zipWith_cons_cons, evalPoly]
      rw [ih c2 hlen xv]
      ring

/-- The sum of two verifiable shares for the same participant, built by
`vshareOne` over coefficient lists of equal length, also passes `Verify`. -/
theorem vverify_vsAdd {p q : ℕ} [NeZero q] (g h : ZMod p)
    (hg : g ^ q = 1) (hh : h ^ q = 1) (scA rcA scB rcB : List (ZMod q))
    (hlA : scA.length = rcA.length) (hlB : scB.length = rcB.length)
    (hlAB : scA.length = scB.length) (hne : scA ≠ []) (i : ℕ) :
    vverify g h ((vshareOne g h scA rcA i).vsAdd (vshareOne g h scB rcB i)) =
      some true := by
  unfold vverify VerifiableShare.vsAdd vshareOne Share.add
  have hlenC : (commitVec g h scA rcA).length = (commitVec g h scB rcB).length := by
    simp only [commitVec, List.length_zipWith]
    omega
  have hcne : ¬ (List.zipWith (· * ·) (commitVec g h scA rcA)
      (commitVec g h scB rcB)).isEmpty := by
    cases scA with
    | nil => exact absurd rfl hne
    | cons a sc =>
      cases rcA with
      | nil => simp at hlA
      | cons b rc =>
        cases scB with
        | nil => simp at hlAB
        | cons b2 sc2 =>
          cases rcB with
          | nil => simp at hlB
          | cons b3 rc3 => simp [commitVec]
  rw [if_neg hcne]
  simp only [Option.some.injEq, decide_eq_true_eq]
  rw [commitProd_zipWith_mul i (commitVec g h scA rcA) (commitVec g h scB rcB) hlenC 0,
    commitProd_commitVec g h scA rcA hlA i 0, commitProd_commitVec g h scB rcB hlB i 0]
  simp only [pow_zero, one_mul]
  rw [show g ^ natEval scA i * h ^ natEval rcA i *
        (g ^ natEval scB i * h ^ natEval rcB i) =
      g ^ natEval scA i * g ^ natEval scB i *
        (h ^ natEval rcA i * h ^ natEval rcB i) by ring,
    ← pow_add, ← pow_add]
  congr 1
  · exact pow_congr_of_cast_eq g hg _ _
      (by push_cast [natEval_cast]; rw [ZMod.natCast_val, ZMod.cast_id])
  · exact pow_congr_of_cast_eq h hh _ _
      (by push_cast [natEval_cast]; rw [ZMod.natCast_val, ZMod.cast_id])

instance {p q : ℕ} : Inhabited (VerifiableShare p q) := ⟨⟨default, default, []⟩⟩

/-- Casting distinct indices below `q` into `F_q` keeps them distinct. -/
theorem natCast_nodup_of_lt {q : ℕ} (sel : List ℕ) (hnd : sel.Nodup)
    (hlt : ∀ i ∈ sel, i < q) : (sel.map (Nat.cast : ℕ → ZMod q)).Nodup := by
  refine hnd.map_on ?_
  intro i hi j hj hij
  have hiq := hlt i hi
  have hjq := hlt j hj
  have := (ZMod.natCast_eq_natCast_iff i j q).mp hij
  rwa [Nat.ModEq, Nat.mod_eq_of_lt hiq, Nat.mod_eq_of_lt hjq] at this

/-- C3 counterexample: with the prime q = 3 and n = 4 ≥ k = 2 (allowed by
the claim's quantifiers), shares 1 and 4 of `Share(ped, 1, 4, 2)` share
the evaluation point `1 ≡ 4 (mod 3)`, so Lagrange interpolation divides
by zero and `Join` fails instead of returning the secret 1. -/
theorem vss_small_field_counterexample :
    Nat.Prime 3 ∧ 2 ≤ 2 ∧ 2 ≤ 4 ∧
    joinOpt [((vshareAll (p := 7) (q := 3) 2 4 [1, 0] [0, 0] 4).getD 0
        default).share,
      ((vshareAll (p := 7) (q := 3) 2 4 [1, 0] [0, 0] 4).getD 3 default).share] =
      none ∧
    (none : Option (ZMod 3)) ≠ some 1 := by
  refine ⟨by norm_num, by decide, by decide, by decide, by decide⟩

/-- C3 (amended): for every prime `q`, secret and blinding coefficients of
degree `< k`, and `n ≥ k ≥ 2` with `n < q`: `Share(ped, s, n, k)` yields
`n` verifiable shares, each passing `Verify`, and `shamir.Join` of the
inner shares of any `k` distinct participants returns `s`.  (The bound
`n < q` is necessary: see the counterexample with `q = 3`, `n = 4`.) -/
theorem vss_share_verify_join {p q : ℕ} [Fact q.Prime] (g h : ZMod p)
    (hg : g ^ q = 1) (hh : h ^ q = 1) (n k : ℕ) (hk : 2 ≤ k) (hkn : k ≤ n)
    (hnq : n < q) (s r : ZMod q) (as bs : List (ZMod q))
    (has : as.length = k - 1) (hbs : bs.length = k - 1) :
    (vshareAll g h (s :: as) (r :: bs) n).length = n ∧
    (∀ i < n, (vshareAll g h (s :: as) (r :: bs) n).get? i =
      some (vshareOne g h (s :: as) (r :: bs) (i + 1))) ∧
    (∀ vs ∈ vshareAll g h (s :: as) (r :: bs) n, vverify g h vs = some true) ∧
    (∀ sel : List ℕ, sel.Nodup → sel.length = k →
      (∀ i ∈ sel, 1 ≤ i ∧ i ≤ n) →
      joinOpt (sel.map (fun i =>
          (vshareOne g h (s :: as) (r :: bs) i).share)) = some s) := by
  have hlen : (s :: as).length = (r :: bs).length := by simp [has, hbs]
  refine ⟨by simp [vshareAll], ?_, ?_, ?_⟩
  · intro i hi
    unfold vshareAll
    rw [List.get?_map, List.get?_range hi]
    rfl
  · intro vs hvs
    unfold vshareAll at hvs
    obtain ⟨i, _, rfl⟩ := List.mem_map.mp hvs
    exact vverify_vshareOne g h hg hh (s :: as) (r :: bs) hlen (by simp) (i + 1)
  · intro sel hnd hselk hsel
    have hmapeq : sel.map (fun i => (vshareOne g h (s :: as) (r :: bs) i).share) =
        sel.map (fun i => (⟨i, evalPoly (s :: as) (i : ZMod q)⟩ : Share q)) := by
      refine List.map_congr_left ?_
      intro i _
      rfl
    rw [hmapeq]
    have hjoin := joinOpt_eq_of_poly
      (sel.map (fun i => (⟨i, evalPoly (s :: as) (i : ZMod q)⟩ : Share q)))
      (s :: as) ?_ ?_ ?_ ?_
    · rw [hjoin]
      simp [evalPoly]
    · intro hempty
      rw [List.map_eq_nil] at hempty
      subst hempty
      simp at hselk
      omega
    · simp only [List.length_map, List.length_cons, hselk, has]
      omega
    · intro sh hsh
      obtain ⟨i, _, rfl⟩ := List.mem_map.mp hsh
      rfl
    · have : (sel.map (fun i =>
          (⟨i, evalPoly (s :: as) (i : ZMod q)⟩ : Share q))).map Share.x =
          sel.map (Nat.cast : ℕ → ZMod q) := by
        rw [List.map_map]
        rfl
      rw [this]
      refine natCast_nodup_of_lt sel hnd ?_
      intro i hi
      have := hsel i hi
      omega

/-- C3 witness: the amended statement at `q = 5`, `p = 11`, `g = 3`,
`h = 9`, `n = 4`, `k = 2`, secret 2: participants 1 and 3 reconstruct 2. -/
theorem vss_share_verify_join_witness :
    (3 : ZMod 11) ^ 5 = 1 ∧
    joinOpt [(vshareOne (p := 11) (q := 5) 3 9 [2, 1] [0, 0] 1).share,
      (vshareOne (p := 11) (q := 5) 3 9 [2, 1] [0, 0] 3).share] =
      some 2 := by
  have hfact : Fact (Nat.Prime 5) := ⟨by norm_num⟩
  refine ⟨by decide, ?_⟩
  have h := (vss_share_verify_join (p := 11) (q := 5) 3 9 (by decide) (by decide)
    4 2 (by decide) (by decide) (by decide) 2 0 [1] [0] rfl rfl).2.2.2
    [1, 3] (by decide) rfl (by decide)
  simpa using h

/-- C8 counterexample: with the prime q = 3 and `n = 4 ≥ k = 2`, the
componentwise sums of two valid `Share` outputs at participants 1 and 4
share the evaluation point `1 ≡ 4 (mod 3)`, so reconstruction from those
`k = 2` summed shares fails instead of yielding `a + b = 2`.  The two
outputs are valid: their summands verify. -/
theorem vss_add_small_field_counterexample :
    Nat.Prime 3 ∧
    vverify (p := 7) (q := 3) 2 4 (vshareOne 2 4 [1, 0] [0, 0] 1) = some true ∧
    vverify (p := 7) (q := 3) 2 4 (vshareOne 2 4 [1, 1] [0, 0] 1) = some true ∧
    joinOpt [((vshareOne (p := 7) (q := 3) 2 4 [1, 0] [0, 0] 1).vsAdd
        (vshareOne 2 4 [1, 1] [0, 0] 1)).share,
      ((vshareOne (p := 7) (q := 3) 2 4 [1, 0] [0, 0] 4).vsAdd
        (vshareOne 2 4 [1, 1] [0, 0] 4)).share] = none ∧
    (none : Option (ZMod 3)) ≠ some 2 := by
  refine ⟨by norm_num, by decide, by decide, by decide, by decide⟩

/-- C8 (amended): for valid `Share` outputs `A` (secret `a`) and `B`
(secret `b`) over the same scheme and field with `n < q`, every
componentwise sum `A[i] + B[i]` passes `Verify`, and `shamir.Join` of any
`k` of the summed inner shares returns `a + b`.  (The bound `n < q` is
necessary: see the counterexample with `q = 3`, `n = 4`.) -/
theorem vss_add_verify_join {p q : ℕ} [Fact q.Prime] (g h : ZMod p)
    (hg : g ^ q = 1) (hh : h ^ q = 1) (n k : ℕ) (hk : 2 ≤ k) (hkn : k ≤ n)
    (hnq : n < q) (sA rA sB rB : ZMod q) (asA bsA asB bsB : List (ZMod q))
    (hA : asA.length = k - 1) (hrA : bsA.length = k - 1)
    (hB : asB.length = k - 1) (hrB : bsB.length = k - 1) :
    (∀ i < n, (vshareAll g h (sA :: asA) (rA :: bsA) n).get? i =
        some (vshareOne g h (sA :: asA) (rA :: bsA) (i + 1)) ∧
      (vshareAll g h (sB :: asB) (rB :: bsB) n).get? i =
        some (vshareOne g h (sB :: asB) (rB :: bsB) (i + 1))) ∧
    (∀ i : ℕ, vverify g h
        ((vshareOne g h (sA :: asA) (rA :: bsA) i).vsAdd
          (vshareOne g h (sB :: asB) (rB :: bsB) i)) = some true) ∧
    (∀ sel : List ℕ, sel.Nodup → sel.length = k →
      (∀ i ∈ sel, 1 ≤ i ∧ i ≤ n) →
      joinOpt (sel.map (fun i =>
          ((vshareOne g h (sA :: asA) (rA :: bsA) i).vsAdd
            (vshareOne g h (sB :: asB) (rB :: bsB) i)).share)) =
        some (sA + sB)) := by
  refine ⟨?_, ?_, ?_⟩
  · intro i hi
    constructor <;>
      (unfold vshareAll; rw [List.get?_map, List.get?_range hi]; rfl)
  · intro i
    exact vverify_vsAdd g h hg hh (sA :: asA) (rA :: bsA) (sB :: asB) (rB :: bsB)
      (by simp [hA, hrA]) (by simp [hB, hrB]) (by simp [hA, hB]) (by simp) i
  · intro sel hnd hselk hsel
    have hmapeq : sel.map (fun i =>
          ((vshareOne g h (sA :: asA) (rA :: bsA) i).vsAdd
            (vshareOne g h (sB :: asB) (rB :: bsB) i)).share) =
        sel.map (fun i =>
          (⟨i, evalPoly (List.zipWith (· + ·) (sA :: asA) (sB :: asB))
            (i : ZMod q)⟩ : Share q)) := by
      refine List.map_congr_left ?_
      intro i _
      show (⟨i, evalPoly (sA :: asA) (i : ZMod q) +
        evalPoly (sB :: asB) (i : ZMod q)⟩ : Share q) = _
      rw [← evalPoly_zipWith_add (sA :: asA) (sB :: asB) (by simp [hA, hB])]
    rw [hmapeq]
    have hjoin := joinOpt_eq_of_poly
      (sel.map (fun i =>
        (⟨i, evalPoly (List.zipWith (· + ·) (sA :: asA) (sB :: asB))
          (i : ZMod q)⟩ : Share q)))
      (List.zipWith (· + ·) (sA :: asA) (sB :: asB)) ?_ ?_ ?_ ?_
    · rw [hjoin]
      simp [evalPoly]
    · intro hempty
      rw [List.map_eq_nil] at hempty
      subst hempty
      simp at hselk
      omega
    · simp only [List.length_map, List.length_zipWith, List.length_cons,
        hselk, hA, hB]
      omega
    · intro sh hsh
      obtain ⟨i, _, rfl⟩ := List.mem_map.mp hsh
      rfl
    · have : (sel.map (fun i =>
          (⟨i, evalPoly (List.zipWith (· + ·) (sA :: asA) (sB :: asB))
            (i : ZMod q)⟩ : Share q))).map Share.x =
          sel.map (Nat.cast : ℕ → ZMod q) := by
        rw [List.map_map]
        rfl
      rw [this]
      refine natCast_nodup_of_lt sel hnd ?_
      intro i hi
      have := hsel i hi
      omega

/-- C8 witness: the amended statement at `q = 5`, `p = 11`, `g = 3`,
`h = 9`, secrets 2 and 1: each sum verifies, and participants 1 and 3
reconstruct 3. -/
theorem vss_add_verify_join_witness :
    vverify (p := 11) (q := 5) 3 9
        ((vshareOne 3 9 [2, 1] [0, 0] 1).vsAdd (vshareOne 3 9 [1, 3] [0, 0] 1)) =
      some true ∧
    joinOpt [((vshareOne (p := 11) (q := 5) 3 9 [2, 1] [0, 0] 1).vsAdd
        (vshareOne 3 9 [1, 3] [0, 0] 1)).share,
      ((vshareOne (p := 11) (q := 5) 3 9 [2, 1] [0, 0] 3).vsAdd
        (vshareOne 3 9 [1, 3] [0, 0] 3)).share] = some 3 := by
  have hfact : Fact (Nat.Prime 5) := ⟨by norm_num⟩
  have h := vss_add_verify_join (p := 11) (q := 5) 3 9 (by decide) (by decide)
    4 2 (by decide) (by decide) (by decide) 2 0 1 0 [1] [0] [3] [0]
    rfl rfl rfl rfl
  refine ⟨h.2.1 1, ?_⟩
  have hj := h.2.2 [1, 3] (by decide) rfl (by decide)
  simpa using hj

/-! ### Multiplier runs: well-formedness and invariants (towards C1) -/

/-- A well-formed `Mul` signal for id `idn` with batch size `L`: all four
batches have length `L` and the local shares carry the multiplier's own
index. -/
def WFMul {q : ℕ} (cfg : MulCfg) (idn L : ℕ) (mm : MulMsgT q) : Prop :=
  mm.id = idn ∧ mm.xs.length = L ∧ mm.ys.length = L ∧ mm.ρs.length = L ∧
  mm.σs.length = L ∧ ∀ b < L, (mm.xs.getD b default).index = cfg.index

/-- A well-formed `OpenMul` for id `idn` with batch size `L`: the batch
has length `L`, the sender index is a valid evaluation point (`< q`), and
each carried share sits at the sender's index. -/
def WFOpen {q : ℕ} (idn L : ℕ) (o : OpenMulT q) : Prop :=
  o.id = idn ∧ o.shares.length = L ∧ o.From < q ∧
  ∀ b < L, (o.shares.getD b default).index = o.From

/-- A well-formed stored entry of the multiplier's `opens` map. -/
def WFEntry {q : ℕ} (L : ℕ) (e : ℕ × OpenMulT q) : Prop :=
  e.2.From = e.1 ∧ e.2.shares.length = L ∧ e.1 < q ∧
  ∀ b < L, (e.2.shares.getD b default).index = e.1

/-- The distinct senders contributed by a run's messages for `idn`: the
`From` of each `OpenMul` and the multiplier's own index once the `Mul`
signal arrives (it generates the local `OpenMul`). -/
def runSenders {q : ℕ} (index idn : ℕ) (ms : List (MulMsg q)) : Finset ℕ :=
  (ms.filterMap (fun m =>
    match m with
    | .mul mm => if mm.id = idn then some index else none
    | .openMul o => if o.id = idn then some o.From else none)).toFinset

/-- The firing condition of the multiplier for `idn` after a run: the
`Mul` signal has arrived and at least `k` distinct senders contributed. -/
def Fired {q : ℕ} (cfg : MulCfg) (idn : ℕ) (p : List (MulMsg q)) : Prop :=
  (∃ mm : MulMsgT q, MulMsg.mul mm ∈ p) ∧
    cfg.k ≤ (runSenders cfg.index idn p).card

/-- Whether a multiplier message is the `Mul` signal (as opposed to an
`OpenMul`). -/
def isMulSignal {q : ℕ} : MulMsg q → Bool
  | .mul _ => true
  | .openMul _ => false

theorem union_singleton_eq_insert (X : Finset ℕ) (a : ℕ) :
    X ∪ {a} = insert a X := by
  ext b
  simp [or_comm]

theorem runSenders_append_open {q : ℕ} (index idn : ℕ) (p : List (MulMsg q))
    (o : OpenMulT q) (ho : o.id = idn) :
    runSenders index idn (p ++ [.openMul o]) =
      insert o.From (runSenders index idn p) := by
  unfold runSenders
  rw [List.filterMap_append]
  simp only [List.filterMap_cons, List.filterMap_nil, ho, if_pos]
  rw [List.toFinset_append]
  exact union_singleton_eq_insert _ _

theorem runSenders_append_mul {q : ℕ} (index idn : ℕ) (p : List (MulMsg q))
    (mm : MulMsgT q) (hmm : mm.id = idn) :
    runSenders index idn (p ++ [.mul mm]) =
      insert index (runSenders index idn p) := by
  unfold runSenders
  rw [List.filterMap_append]
  simp only [List.filterMap_cons, List.filterMap_nil, hmm, if_pos]
  rw [List.toFinset_append]
  exact union_singleton_eq_insert _ _

theorem exists_mul_append_open {q : ℕ} (p : List (MulMsg q)) (o : OpenMulT q) :
    (∃ mm : MulMsgT q, MulMsg.mul mm ∈ p ++ [.openMul o]) ↔
      ∃ mm : MulMsgT q, MulMsg.mul mm ∈ p := by
  constructor
  · rintro ⟨mm, hmm⟩
    rcases List.mem_append.mp hmm with h | h
    · exact ⟨mm, h⟩
    · simp at h
  · rintro ⟨mm, hmm⟩
    exact ⟨mm, List.mem_append.mpr (Or.inl hmm)⟩

/-- The keys of `insertOpen` as a set: the sender is added. -/
theorem insertOpen_keys_toFinset {q : ℕ} (l : List (ℕ × OpenMulT q))
    (m : OpenMulT q) :
    ((insertOpen l m).map Prod.fst).toFinset =
      insert m.From (l.map Prod.fst).toFinset := by
  induction l with
  | nil => simp [insertOpen]
  | cons so rest ih =>
    obtain ⟨s, o⟩ := so
    by_cases h1 : m.From < s
    · simp [insertOpen, h1]
    · by_cases h2 : m.From = s
      · subst h2
        simp [insertOpen, h1]
      · simp only [insertOpen, if_neg h1, if_neg h2, List.map_cons,
          List.toFinset_cons, ih]
        ext y
        simp only [Finset.mem_insert]
        tauto

/-- Every key of `insertOpen l m` is the new sender or an old key. -/
theorem insertOpen_keys_subset {q : ℕ} (l : List (ℕ × OpenMulT q))
    (m : OpenMulT q) :
    ∀ x ∈ (insertOpen l m).map Prod.fst, x = m.From ∨ x ∈ l.map Prod.fst := by
  induction l with
  | nil => simp [insertOpen]
  | cons so rest ih =>
    obtain ⟨s, o⟩ := so
    intro x hx
    by_cases h1 : m.From < s
    · simp only [insertOpen, if_pos h1, List.map_cons, List.mem_cons] at hx
      rcases hx with rfl | rfl | hx <;> simp_all
    · by_cases h2 : m.From = s
      · simp only [insertOpen, if_neg h1, if_pos h2, List.map_cons,
          List.mem_cons] at hx
        rcases hx with rfl | hx <;> simp_all
      · simp only [insertOpen, if_neg h1, if_neg h2, List.map_cons,
          List.mem_cons] at hx
        rcases hx with rfl | hx
        · simp
        · rcases ih x hx with h | h
          · exact Or.inl h
          · simp_all

/-- `insertOpen` keeps the keys strictly sorted. -/
theorem insertOpen_sorted {q : ℕ} (l : List (ℕ × OpenMulT q)) (m : OpenMulT q)
    (hs : (l.map Prod.fst).Pairwise (· < ·)) :
    ((insertOpen l m).map Prod.fst).Pairwise (· < ·) := by
  induction l with
  | nil => simp [insertOpen]
  | cons so rest ih =>
    obtain ⟨s, o⟩ := so
    rw [List.map_cons, List.pairwise_cons] at hs
    by_cases h1 : m.From < s
    · simp only [insertOpen, if_pos h1, List.map_cons, List.pairwise_cons]
      refine ⟨?_, hs.1, hs.2⟩
      intro y hy
      rcases List.mem_cons.mp hy with rfl | hy
      · exact h1
      · exact lt_trans h1 (hs.1 y hy)
    · by_cases h2 : m.From = s
      · simp only [insertOpen, if_neg h1, if_pos h2, List.map_cons,
          List.pairwise_cons]
        exact ⟨fun y hy => h2 ▸ hs.1 y hy, hs.2⟩
      · simp only [insertOpen, if_neg h1, if_neg h2, List.map_cons,
          List.pairwise_cons]
        refine ⟨?_, ih hs.2⟩
        intro y hy
        rcases insertOpen_keys_subset rest m y hy with rfl | hy
        · omega
        · exact hs.1 y hy

/-- `insertOpen` of an absent sender grows the map by one entry. -/
theorem insertOpen_not_mem_length {q : ℕ} (l : List (ℕ × OpenMulT q))
    (m : OpenMulT q) (hnm : m.From ∉ l.map Prod.fst) :
    (insertOpen l m).length = l.length + 1 := by
  induction l with
  | nil => simp [insertOpen]
  | cons so rest ih =>
    obtain ⟨s, o⟩ := so
    simp only [List.map_cons, List.mem_cons, not_or] at hnm
    by_cases h1 : m.From < s
    · simp [insertOpen, h1]
    · have h2 : ¬ m.From = s := hnm.1
      simp only [insertOpen, if_neg h1, if_neg h2, List.length_cons]
      rw [ih hnm.2]

/-- Every entry of `insertOpen l m` is the fresh entry or an old one. -/
theorem insertOpen_entries {q : ℕ} (l : List (ℕ × OpenMulT q)) (m : OpenMulT q) :
    ∀ e ∈ insertOpen l m, e = (m.From, m) ∨ e ∈ l := by
  induction l with
  | nil => simp [insertOpen]
  | cons so rest ih =>
    obtain ⟨s, o⟩ := so
    intro e he
    by_cases h1 : m.From < s
    · simp only [insertOpen, if_pos h1, List.mem_cons] at he
      rcases he with rfl | rfl | he <;> simp_all
    · by_cases h2 : m.From = s
      · simp only [insertOpen, if_neg h1, if_pos h2, List.mem_cons] at he
        rcases he with rfl | he <;> simp_all
      · simp only [insertOpen, if_neg h1, if_neg h2, List.mem_cons] at he
        rcases he with rfl | he
        · simp
        · rcases ih e he with h | h
          · exact Or.inl h
          · simp_all

/-- A `shamir.Join` over a non-empty list of shares with distinct indices
below `q` succeeds. -/
theorem joinOpt_isSome_of_nodup_lt {q : ℕ} [Fact q.Prime]
    (shares : List (Share q)) (hne : shares ≠ [])
    (hnd : (shares.map Share.index).Nodup)
    (hlt : ∀ sh ∈ shares, sh.index < q) : (joinOpt shares).isSome := by
  have hxdist : (shares.map Share.x).Nodup := by
    have : shares.map Share.x =
        (shares.map Share.index).map (Nat.cast : ℕ → ZMod q) := by
      rw [List.map_map]; rfl
    rw [this]
    refine natCast_nodup_of_lt _ hnd ?_
    intro i hi
    obtain ⟨sh, hsh, rfl⟩ := List.mem_map.mp hi
    exact hlt sh hsh
  have hinj : ∀ a ∈ shares, ∀ b ∈ shares, a.x = b.x → a = b :=
    List.inj_on_of_nodup_map hxdist
  have hnover : ¬ ∃ sh ∈ shares, lagDen shares.toFinset sh = 0 := by
    rintro ⟨sh, hsh, h0⟩
    unfold lagDen at h0
    rw [Finset.prod_eq_zero_iff] at h0
    obtain ⟨t, ht, h0⟩ := h0
    rw [Finset.mem_erase, List.mem_toFinset] at ht
    have hx : t.x = sh.x := by
      have := sub_eq_zero.mp h0
      exact this
    exact ht.1 (hinj t ht.2 sh hsh hx)
  unfold joinOpt
  rw [if_neg (by simpa [List.isEmpty_iff] using hne), if_neg (by simpa using hnd),
    if_neg hnover]
  rfl

/-- Runs decompose along list append. -/
theorem runMul_append_some {q : ℕ} (cfg : MulCfg) (s s1 : MulState q)
    (l1 l2 : List (MulMsg q)) (out1 : List (MulResultT q))
    (h : runMul cfg s l1 = some (s1, out1)) :
    runMul cfg s (l1 ++ l2) =
      (runMul cfg s1 l2).map (fun pr => (pr.1, out1 ++ pr.2)) := by
  induction l1 generalizing s out1 with
  | nil =>
    simp only [runMul, Option.some.injEq] at h
    rw [Prod.ext_iff] at h
    obtain ⟨h1, h2⟩ := h
    subst h1
    subst h2
    simp only [List.nil_append]
    cases runMul cfg s l2 with
    | none => rfl
    | some pr => obtain ⟨s2, out2⟩ := pr; simp
  | cons m rest ih =>
    simp only [runMul] at h
    rw [List.cons_append]
    simp only [runMul]
    cases hred : mulReduce cfg s m with
    | none => rw [hred] at h; exact absurd h (by simp)
    | some pr =>
      obtain ⟨sa, outa⟩ := pr
      rw [hred] at h
      dsimp only at h ⊢
      cases hrest : runMul cfg sa rest with
      | none => rw [hrest] at h; exact absurd h (by simp)
      | some pr2 =>
        obtain ⟨sb, outb⟩ := pr2
        rw [hrest] at h
        simp only [Option.map_some, Option.some.injEq] at h
        rw [Prod.ext_iff] at h
        obtain ⟨h1, h2⟩ := h
        subst h1
        subst h2
        rw [ih sa outb hrest]
        cases runMul cfg sb l2 with
        | none => rfl
        | some pr3 =>
          obtain ⟨sc, outc⟩ := pr3
          simp [List.append_assoc]

/-- Elements of `(List.range L).map f` at positions below `L`. -/
theorem getD_map_range {α : Type} [Inhabited α] (L b : ℕ) (f : ℕ → α)
    (hb : b < L) : ((List.range L).map f).getD b default = f b := by
  rw [List.getD_eq_getElem?_getD]
  rw [List.getElem?_map, List.getElem?_range hb]
  rfl

/-- The toFinset-cardinality of a strictly sorted key list is its length. -/
theorem sorted_keys_card {q : ℕ} (l : List (ℕ × OpenMulT q))
    (hs : (l.map Prod.fst).Pairwise (· < ·)) :
    ((l.map Prod.fst).toFinset).card = l.length := by
  have hnd : (l.map Prod.fst).Nodup := hs.imp (fun h => Nat.ne_of_lt h)
  rw [List.toFinset_card_of_nodup hnd, List.length_map]

/-- A sender-sorted openings map whose keys all lie in `1..nn` stores at
most `nn` entries (so the source's `n`-sized `sharesCache` suffices). -/
theorem bounded_sorted_length {q : ℕ} (nn : ℕ) (l : List (ℕ × OpenMulT q))
    (hs : (l.map Prod.fst).Pairwise (· < ·))
    (hb : ∀ e ∈ l, 1 ≤ e.1 ∧ e.1 ≤ nn) :
    l.length ≤ nn := by
  have hsub : (l.map Prod.fst).toFinset ⊆ Finset.Icc 1 nn := by
    intro x hx
    simp only [List.mem_toFinset, List.mem_map] at hx
    obtain ⟨e, he, rfl⟩ := hx
    exact Finset.mem_Icc.mpr (hb e he)
  have hcard := Finset.card_le_card hsub
  rw [sorted_keys_card l hs, Nat.card_Icc] at hcard
  omega

/-- Under the entry invariant, the share indices of a column are the
sender keys. -/
theorem openColumn_indices {q : ℕ} (l : List (ℕ × OpenMulT q)) (L b : ℕ)
    (hb : b < L) (hwf : ∀ e ∈ l, WFEntry L e) :
    (openColumn l b).map Share.index = l.map Prod.fst := by
  unfold openColumn
  rw [List.map_map]
  refine List.map_congr_left ?_
  intro e he
  exact (hwf e he).2.2.2 b hb

/-- Under the entry invariant and sorted senders, each column joins
successfully. -/
theorem openColumn_join_isSome {q : ℕ} [Fact q.Prime]
    (l : List (ℕ × OpenMulT q)) (L b : ℕ) (hb : b < L)
    (hwf : ∀ e ∈ l, WFEntry L e)
    (hs : (l.map Prod.fst).Pairwise (· < ·)) (hne : l ≠ []) :
    (joinOpt (openColumn l b)).isSome := by
  refine joinOpt_isSome_of_nodup_lt _ ?_ ?_ ?_
  · unfold openColumn
    simpa using hne
  · rw [openColumn_indices l L b hb hwf]
    exact hs.imp (fun h => Nat.ne_of_lt h)
  · intro sh hsh
    unfold openColumn at hsh
    obtain ⟨e, he, rfl⟩ := List.mem_map.mp hsh
    rw [(hwf e he).2.2.2 b hb]
    exact (hwf e he).2.2.1

/-- The multiplier's per-id invariant along a well-formed run `p`:
before the firing condition is met, no output was produced, no result is
cached, the `opens` map is a sorted well-formed record of exactly the
senders seen so far, and the `Mul` signal is stored iff it arrived;
afterwards, exactly one output was produced, the result is cached and the
signal is consumed. -/
def MulInvariant {q : ℕ} (cfg : MulCfg) (idn L : ℕ) (p : List (MulMsg q))
    (sp : MulState q) (outLen : ℕ) : Prop :=
  (Fired cfg idn p →
    outLen = 1 ∧ (sp.results idn).isSome ∧ sp.muls idn = none) ∧
  (¬ Fired cfg idn p →
    outLen = 0 ∧ sp.results idn = none ∧
    ((sp.opens idn).map Prod.fst).Pairwise (· < ·) ∧
    ((sp.opens idn).map Prod.fst).toFinset = runSenders cfg.index idn p ∧
    (∀ e ∈ sp.opens idn, WFEntry L e) ∧
    (∀ e ∈ sp.opens idn, 1 ≤ e.1 ∧ e.1 ≤ cfg.n) ∧
    ((∃ mm : MulMsgT q, MulMsg.mul mm ∈ p) ↔ (sp.muls idn).isSome) ∧
    (∀ mm', sp.muls idn = some mm' → WFMul cfg idn L mm'))

/-- Storing a well-formed `OpenMul` maintains the unfired state facts. -/
theorem mulInv_unfired_insert {q : ℕ} (cfg : MulCfg) (idn L : ℕ)
    (p : List (MulMsg q)) (sp : MulState q) (o : OpenMulT q)
    (ho : WFOpen idn L o)
    (hres : sp.results idn = none)
    (hsort : ((sp.opens idn).map Prod.fst).Pairwise (· < ·))
    (hkeys : ((sp.opens idn).map Prod.fst).toFinset = runSenders cfg.index idn p)
    (hwfents : ∀ e ∈ sp.opens idn, WFEntry L e)
    (hob : 1 ≤ o.From ∧ o.From ≤ cfg.n)
    (hbnd : ∀ e ∈ sp.opens idn, 1 ≤ e.1 ∧ e.1 ≤ cfg.n)
    (hmulIff : (∃ mm : MulMsgT q, MulMsg.mul mm ∈ p) ↔ (sp.muls idn).isSome)
    (hmulWF : ∀ mm', sp.muls idn = some mm' → WFMul cfg idn L mm') :
    (MulState.mk sp.muls
        (updFn sp.opens o.id (insertOpen (sp.opens o.id) o))
        sp.results).results idn = none ∧
    (((MulState.mk sp.muls
        (updFn sp.opens o.id (insertOpen (sp.opens o.id) o))
        sp.results).opens idn).map Prod.fst).Pairwise (· < ·) ∧
    (((MulState.mk sp.muls
        (updFn sp.opens o.id (insertOpen (sp.opens o.id) o))
        sp.results).opens idn).map Prod.fst).toFinset =
      runSenders cfg.index idn (p ++ [.openMul o]) ∧
    (∀ e ∈ (MulState.mk sp.muls
        (updFn sp.opens o.id (insertOpen (sp.opens o.id) o))
        sp.results).opens idn, WFEntry L e) ∧
    (∀ e ∈ (MulState.mk sp.muls
        (updFn sp.opens o.id (insertOpen (sp.opens o.id) o))
        sp.results).opens idn, 1 ≤ e.1 ∧ e.1 ≤ cfg.n) ∧
    ((∃ mm : MulMsgT q, MulMsg.mul mm ∈ p ++ [.openMul o]) ↔
      ((MulState.mk sp.muls
        (updFn sp.opens o.id (insertOpen (sp.opens o.id) o))
        sp.results).muls idn).isSome) ∧
    (∀ mm', (MulState.mk sp.muls
        (updFn sp.opens o.id (insertOpen (sp.opens o.id) o))
        sp.results).muls idn = some mm' → WFMul cfg idn L mm') := by
  have hoid : o.id = idn := ho.1
  have hupd : updFn sp.opens o.id (insertOpen (sp.opens o.id) o) idn =
      insertOpen (sp.opens o.id) o := by
    simp [updFn, hoid]
  refine ⟨hres, ?_, ?_, ?_, ?_, ?_, hmulWF⟩
  · show ((updFn sp.opens o.id (insertOpen (sp.opens o.id) o) idn).map
      Prod.fst).Pairwise (· < ·)
    rw [hupd, hoid]
    exact insertOpen_sorted _ _ hsort
  · show ((updFn sp.opens o.id (insertOpen (sp.opens o.id) o) idn).map
      Prod.fst).toFinset = _
    rw [hupd, hoid, insertOpen_keys_toFinset, hkeys,
      runSenders_append_open cfg.index idn p o hoid]
  · show ∀ e ∈ updFn sp.opens o.id (insertOpen (sp.opens o.id) o) idn, _
    rw [hupd]
    intro e he
    rcases insertOpen_entries _ _ e he with rfl | he2
    · exact ⟨rfl, ho.2.1, ho.2.2.1, fun b hb => ho.2.2.2 b hb⟩
    · exact hwfents e (hoid ▸ he2)
  · show ∀ e ∈ updFn sp.opens o.id (insertOpen (sp.opens o.id) o) idn, _
    rw [hupd]
    intro e he
    rcases insertOpen_entries _ _ e he with rfl | he2
    · exact hob
    · exact hbnd e (hoid ▸ he2)
  · rw [exists_mul_append_open]
    exact hmulIff

/-- One well-formed message preserves the multiplier invariant, emitting
a `Result` exactly when the step first establishes the firing condition. -/
theorem mulReduce_preserves_inv {q : ℕ} [Fact q.Prime] (cfg : MulCfg)
    (idn L : ℕ) (hk : 1 ≤ cfg.k) (hidx : cfg.index < q)
    (hidxn : 1 ≤ cfg.index ∧ cfg.index ≤ cfg.n)
    (p : List (MulMsg q)) (sp : MulState q) (outLen : ℕ)
    (hinv : MulInvariant cfg idn L p sp outLen) :
    (∀ o : OpenMulT q, WFOpen idn L o → 1 ≤ o.From ∧ o.From ≤ cfg.n →
      ∃ sp' out1, mulReduce cfg sp (.openMul o) = some (sp', out1) ∧
        MulInvariant cfg idn L (p ++ [.openMul o]) sp' (outLen + out1.length)) ∧
    (∀ mm : MulMsgT q, WFMul cfg idn L mm →
      (¬ ∃ mm' : MulMsgT q, MulMsg.mul mm' ∈ p) →
      ∃ sp' out1, mulReduce cfg sp (.mul mm) = some (sp', out1) ∧
        MulInvariant cfg idn L (p ++ [.mul mm]) sp' (outLen + out1.length)) := by
  constructor
  · -- external OpenMul
    intro o ho hob
    have hoid : o.id = idn := ho.1
    have hmono : Fired cfg idn p → Fired cfg idn (p ++ [.openMul o]) := by
      rintro ⟨hex, hcard⟩
      refine ⟨(exists_mul_append_open p o).mpr hex, ?_⟩
      rw [runSenders_append_open cfg.index idn p o hoid]
      exact le_trans hcard (Finset.card_le_card (Finset.subset_insert _ _))
    by_cases hf : Fired cfg idn p
    · -- already fired: the step stores the message and emits nothing
      obtain ⟨hout, hres, hmuls⟩ := hinv.1 hf
      have htry : tryOpenMul cfg sp o =
          some (MulState.mk sp.muls
            (updFn sp.opens o.id (insertOpen (sp.opens o.id) o))
            sp.results, none) := by
        simp only [tryOpenMul]
        by_cases hql : (insertOpen (sp.opens o.id) o).length < cfg.k
        · rw [if_pos hql]
        · rw [if_neg hql, show sp.muls o.id = none from hoid ▸ hmuls]
      refine ⟨MulState.mk sp.muls
          (updFn sp.opens o.id (insertOpen (sp.opens o.id) o)) sp.results,
        [], ?_, ?_⟩
      · simp only [mulReduce]
        rw [htry]
        rfl
      · constructor
        · intro _
          exact ⟨by simpa using hout, hres ▸ (by simp), hmuls⟩
        · intro hnf
          exact absurd (hmono hf) hnf
    · -- not fired yet
      obtain ⟨hout, hres, hsort, hkeys, hwfents, hbnd, hmulIff, hmulWF⟩ := hinv.2 hf
      have habsorb := mulInv_unfired_insert cfg idn L p sp o ho hres hsort
        hkeys hwfents hob hbnd hmulIff hmulWF
      have hsort' : ((insertOpen (sp.opens o.id) o).map Prod.fst).Pairwise (· < ·) := by
        rw [hoid]
        exact insertOpen_sorted _ _ hsort
      have hcard' : (runSenders cfg.index idn (p ++ [.openMul o])).card =
          (insertOpen (sp.opens o.id) o).length := by
        rw [← habsorb.2.2.1]
        show ((updFn sp.opens o.id (insertOpen (sp.opens o.id) o) idn).map
          Prod.fst).toFinset.card = _
        rw [show updFn sp.opens o.id (insertOpen (sp.opens o.id) o) idn =
          insertOpen (sp.opens o.id) o from by simp [updFn, hoid]]
        exact sorted_keys_card _ hsort'
      cases hmm : sp.muls idn with
      | none =>
        have hnomul : ¬ ∃ mm : MulMsgT q, MulMsg.mul mm ∈ p := by
          rw [hmulIff, hmm]
          simp
        have hnf' : ¬ Fired cfg idn (p ++ [.openMul o]) := by
          rintro ⟨hex, _⟩
          exact hnomul ((exists_mul_append_open p o).mp hex)
        have htry : tryOpenMul cfg sp o =
            some (MulState.mk sp.muls
              (updFn sp.opens o.id (insertOpen (sp.opens o.id) o))
              sp.results, none) := by
          simp only [tryOpenMul]
          by_cases hql : (insertOpen (sp.opens o.id) o).length < cfg.k
          · rw [if_pos hql]
          · rw [if_neg hql, show sp.muls o.id = none from hoid ▸ hmm]
        refine ⟨MulState.mk sp.muls
            (updFn sp.opens o.id (insertOpen (sp.opens o.id) o)) sp.results,
          [], ?_, ?_⟩
        · simp only [mulReduce]
          rw [htry]
          rfl
        · constructor
          · intro hfk
            exact absurd hfk hnf'
          · intro _
            exact ⟨by simpa using hout, habsorb.1, habsorb.2.1, habsorb.2.2.1,
              habsorb.2.2.2.1, habsorb.2.2.2.2.1, habsorb.2.2.2.2.2.1,
              habsorb.2.2.2.2.2.2⟩
      | some mm =>
        have hmmWF := hmulWF mm hmm
        have hexp : ∃ mm' : MulMsgT q, MulMsg.mul mm' ∈ p := by
          rw [hmulIff, hmm]; simp
        by_cases hql : (insertOpen (sp.opens o.id) o).length < cfg.k
        · -- still below the quorum
          have hnf' : ¬ Fired cfg idn (p ++ [.openMul o]) := by
            rintro ⟨_, hcard⟩
            rw [hcard'] at hcard
            omega
          have htry : tryOpenMul cfg sp o =
              some (MulState.mk sp.muls
                (updFn sp.opens o.id (insertOpen (sp.opens o.id) o))
                sp.results, none) := by
            simp only [tryOpenMul]
            rw [if_pos hql]
          refine ⟨MulState.mk sp.muls
              (updFn sp.opens o.id (insertOpen (sp.opens o.id) o)) sp.results,
            [], ?_, ?_⟩
          · simp only [mulReduce]
            rw [htry]
            rfl
          · constructor
            · intro hfk
              exact absurd hfk hnf'
            · intro _
              exact ⟨by simpa using hout, habsorb.1, habsorb.2.1, habsorb.2.2.1,
                habsorb.2.2.2.1, habsorb.2.2.2.2.1, habsorb.2.2.2.2.2.1,
                habsorb.2.2.2.2.2.2⟩
        · -- quorum reached with the signal present: fire
          have hwfents' : ∀ e ∈ insertOpen (sp.opens o.id) o, WFEntry L e := by
            intro e he
            rcases insertOpen_entries _ _ e he with rfl | he2
            · exact ⟨rfl, ho.2.1, ho.2.2.1, fun b hb => ho.2.2.2 b hb⟩
            · exact hwfents e (hoid ▸ he2)
          have hne1 : insertOpen (sp.opens o.id) o ≠ [] := by
            intro hnil
            rw [hnil] at hql
            simp only [List.length_nil] at hql
            omega
          have hlenOK : (∀ so ∈ insertOpen (sp.opens o.id) o,
              o.shares.length ≤ so.2.shares.length) ∧
              o.shares.length ≤ mm.σs.length := by
            constructor
            · intro so hso
              rw [(hwfents' so hso).2.1, ho.2.1]
            · rw [ho.2.1, hmmWF.2.2.2.2.1]
          have hjoins : ∀ b < o.shares.length,
              (joinOpt (openColumn (insertOpen (sp.opens o.id) o) b)).isSome := by
            intro b hb
            refine openColumn_join_isSome _ L b ?_ hwfents' hsort' hne1
            rw [ho.2.1] at hb
            exact hb
          have hbnd' : ∀ e ∈ insertOpen (sp.opens o.id) o,
              1 ≤ e.1 ∧ e.1 ≤ cfg.n := by
            intro e he
            rcases insertOpen_entries _ _ e he with rfl | he2
            · exact hob
            · exact hbnd e (hoid ▸ he2)
          have hlen_le : (insertOpen (sp.opens o.id) o).length ≤ cfg.n :=
            bounded_sorted_length cfg.n _ hsort' hbnd'
          have hnb : ¬ (1 ≤ o.shares.length ∧
              cfg.n < (insertOpen (sp.opens o.id) o).length) := by
            rintro ⟨_, hgt⟩
            omega
          have htry : ∃ rr, tryOpenMul cfg sp o =
              some (MulState.mk (updFn sp.muls o.id none)
                (updFn sp.opens o.id [])
                (updFn sp.results o.id (some rr)), some rr) := by
            simp only [tryOpenMul]
            rw [if_neg hql, show sp.muls o.id = some mm from hoid ▸ hmm]
            dsimp only
            rw [show sp.results o.id = none from hoid ▸ hres]
            rw [if_neg (by simp), if_neg hnb, if_pos hlenOK, if_pos hjoins]
            exact ⟨_, rfl⟩
          obtain ⟨rr, htry⟩ := htry
          have hf' : Fired cfg idn (p ++ [.openMul o]) := by
            refine ⟨(exists_mul_append_open p o).mpr hexp, ?_⟩
            rw [hcard']
            omega
          refine ⟨MulState.mk (updFn sp.muls o.id none)
              (updFn sp.opens o.id []) (updFn sp.results o.id (some rr)),
            [rr], ?_, ?_⟩
          · simp only [mulReduce]
            rw [htry]
            rfl
          · constructor
            · intro _
              refine ⟨by simpa using hout, ?_, ?_⟩
              · show (updFn sp.results o.id (some rr) idn).isSome
                simp [updFn, hoid]
              · show updFn sp.muls o.id none idn = none
                simp [updFn, hoid]
            · intro hnf
              exact absurd hf' hnf
  · -- the Mul signal
    intro mm hm hnomul
    have hmid : mm.id = idn := hm.1
    have hnf : ¬ Fired cfg idn p := fun hfk => hnomul hfk.1
    obtain ⟨hout, hres, hsort, hkeys, hwfents, hbnd, hmulIff, hmulWF⟩ := hinv.2 hnf
    have hmulsnone : sp.muls idn = none := by
      rcases h : sp.muls idn with _ | mm2
      · rfl
      · exact absurd (hmulIff.mpr (by rw [h]; simp)) hnomul
    -- the locally generated OpenMul
    have homshape :
        WFOpen idn L (OpenMulT.mk mm.id cfg.index
          ((List.range mm.xs.length).map (fun b =>
            ((mm.xs.getD b default).mul (mm.ys.getD b default)).add
              (mm.ρs.getD b default)))) := by
      refine ⟨hmid, ?_, hidx, ?_⟩
      · rw [List.length_map, List.length_range, hm.2.1]
      · intro b hb
        rw [← hm.2.1] at hb
        dsimp only
        rw [getD_map_range _ _ _ hb]
        show (mm.xs.getD b default).index = cfg.index
        rw [hm.2.1] at hb
        exact hm.2.2.2.2.2 b hb
    set om : OpenMulT q := OpenMulT.mk mm.id cfg.index
      ((List.range mm.xs.length).map (fun b =>
        ((mm.xs.getD b default).mul (mm.ys.getD b default)).add
          (mm.ρs.getD b default))) with hom
    -- the state after recording the signal
    set s1 : MulState q := MulState.mk (updFn sp.muls mm.id (some mm))
      sp.opens sp.results with hs1
    have hs1muls : s1.muls om.id = some mm := by
      show updFn sp.muls mm.id (some mm) om.id = some mm
      simp [updFn, hom]
    have hs1res : s1.results om.id = none := by
      show sp.results om.id = none
      rw [show om.id = idn from hmid]
      exact hres
    have hs1opens : s1.opens om.id = sp.opens om.id := rfl
    have hsort' : ((insertOpen (s1.opens om.id) om).map Prod.fst).Pairwise (· < ·) := by
      rw [hs1opens, show om.id = idn from hmid]
      exact insertOpen_sorted _ _ hsort
    have hS' : ((insertOpen (s1.opens om.id) om).map Prod.fst).toFinset =
        runSenders cfg.index idn (p ++ [.mul mm]) := by
      rw [hs1opens, show om.id = idn from hmid, insertOpen_keys_toFinset, hkeys,
        runSenders_append_mul cfg.index idn p mm hmid]
    have hcard' : (runSenders cfg.index idn (p ++ [.mul mm])).card =
        (insertOpen (s1.opens om.id) om).length := by
      rw [← hS', sorted_keys_card _ hsort']
    have hwfents' : ∀ e ∈ insertOpen (s1.opens om.id) om, WFEntry L e := by
      intro e he
      rw [hs1opens] at he
      rcases insertOpen_entries _ _ e he with rfl | he2
      · exact ⟨rfl, homshape.2.1, homshape.2.2.1, fun b hb => homshape.2.2.2 b hb⟩
      · exact hwfents e (by rw [show om.id = idn from hmid] at he2; exact he2)
    have hbnd' : ∀ e ∈ insertOpen (s1.opens om.id) om,
        1 ≤ e.1 ∧ e.1 ≤ cfg.n := by
      intro e he
      rw [hs1opens] at he
      rcases insertOpen_entries _ _ e he with rfl | he2
      · exact hidxn
      · exact hbnd e (by rw [show om.id = idn from hmid] at he2; exact he2)
    have hexists' : ∃ mm' : MulMsgT q, MulMsg.mul mm' ∈ p ++ [.mul mm] :=
      ⟨mm, List.mem_append.mpr (Or.inr (by simp))⟩
    have hlenys : mm.xs.length ≤ mm.ys.length ∧ mm.xs.length ≤ mm.ρs.length := by
      rw [hm.2.1, hm.2.2.1, hm.2.2.2.1]
      exact ⟨le_refl L, le_refl L⟩
    by_cases hql : (insertOpen (s1.opens om.id) om).length < cfg.k
    · -- below quorum even with the local share: record and broadcast only
      have hnf' : ¬ Fired cfg idn (p ++ [.mul mm]) := by
        rintro ⟨_, hcard⟩
        rw [hcard'] at hcard
        omega
      have htry : tryOpenMul cfg s1 om =
          some (MulState.mk s1.muls
            (updFn s1.opens om.id (insertOpen (s1.opens om.id) om))
            s1.results, none) := by
        simp only [tryOpenMul]
        rw [if_pos hql]
      have hred : mulReduce cfg sp (.mul mm) =
          some (MulState.mk s1.muls
            (updFn s1.opens om.id (insertOpen (s1.opens om.id) om))
            s1.results, []) := by
        simp only [mulReduce, mulFn]
        rw [show sp.results mm.id = none from hmid ▸ hres]
        rw [if_pos hlenys]
        rw [show tryOpenMul cfg
            (MulState.mk (updFn sp.muls mm.id (some mm)) sp.opens sp.results)
            (OpenMulT.mk mm.id cfg.index
              ((List.range mm.xs.length).map (fun b =>
                ((mm.xs.getD b default).mul (mm.ys.getD b default)).add
                  (mm.ρs.getD b default)))) =
            some (MulState.mk s1.muls
              (updFn s1.opens om.id (insertOpen (s1.opens om.id) om))
              s1.results, none) from htry]
        rfl
      refine ⟨_, [], hred, ?_⟩
      constructor
      · intro hfk
        exact absurd hfk hnf'
      · intro _
        have hupd : updFn s1.opens om.id (insertOpen (s1.opens om.id) om) idn =
            insertOpen (s1.opens om.id) om := by
          show (if idn = om.id then insertOpen (s1.opens om.id) om
            else s1.opens idn) = insertOpen (s1.opens om.id) om
          rw [if_pos (show idn = om.id from hmid.symm)]
        refine ⟨by simpa using hout, ?_, ?_, ?_, ?_, ?_, ?_, ?_⟩
        · exact hres
        · show ((updFn s1.opens om.id (insertOpen (s1.opens om.id) om) idn).map
            Prod.fst).Pairwise (· < ·)
          rw [hupd]
          exact hsort'
        · show ((updFn s1.opens om.id (insertOpen (s1.opens om.id) om) idn).map
            Prod.fst).toFinset = _
          rw [hupd]
          exact hS'
        · show ∀ e ∈ updFn s1.opens om.id (insertOpen (s1.opens om.id) om) idn, _
          rw [hupd]
          exact hwfents'
        · show ∀ e ∈ updFn s1.opens om.id (insertOpen (s1.opens om.id) om) idn, _
          rw [hupd]
          exact hbnd'
        · constructor
          · intro _
            show (updFn sp.muls mm.id (some mm) idn).isSome
            simp [updFn, hmid]
          · intro _
            exact hexists'
        · intro mm' hmm'
          have : updFn sp.muls mm.id (some mm) idn = some mm' := hmm'
          rw [show updFn sp.muls mm.id (some mm) idn = some mm from by
            simp [updFn, hmid]] at this
          rw [← Option.some.inj this]
          exact hm
    · -- the local share completes the quorum: fire immediately
      have hne1 : insertOpen (s1.opens om.id) om ≠ [] := by
        intro hnil
        rw [hnil] at hql
        simp only [List.length_nil] at hql
        omega
      have hlenOK : (∀ so ∈ insertOpen (s1.opens om.id) om,
          om.shares.length ≤ so.2.shares.length) ∧
          om.shares.length ≤ mm.σs.length := by
        constructor
        · intro so hso
          rw [(hwfents' so hso).2.1, homshape.2.1]
        · rw [homshape.2.1, hm.2.2.2.2.1]
      have hjoins : ∀ b < om.shares.length,
          (joinOpt (openColumn (insertOpen (s1.opens om.id) om) b)).isSome := by
        intro b hb
        refine openColumn_join_isSome _ L b ?_ hwfents' hsort' hne1
        rw [homshape.2.1] at hb
        exact hb
      have hlenOK2 : (∀ so ∈ insertOpen (sp.opens mm.id) om,
          om.shares.length ≤ so.2.shares.length) ∧
          om.shares.length ≤ mm.σs.length := hlenOK
      have hjoins2 : ∀ b < om.shares.length,
          (joinOpt (openColumn (insertOpen (sp.opens mm.id) om) b)).isSome := hjoins
      have hlen_le2 : (insertOpen (sp.opens mm.id) om).length ≤ cfg.n :=
        bounded_sorted_length cfg.n _ hsort' hbnd'
      have hnb2 : ¬ (1 ≤ om.shares.length ∧
          cfg.n < (insertOpen (sp.opens mm.id) om).length) := by
        rintro ⟨_, hgt⟩
        omega
      have htry : ∃ rr, tryOpenMul cfg s1 om =
          some (MulState.mk (updFn s1.muls om.id none)
            (updFn s1.opens om.id [])
            (updFn s1.results om.id (some rr)), some rr) := by
        simp only [tryOpenMul]
        rw [if_neg hql]
        rw [show updFn sp.muls mm.id (some mm) mm.id = some mm from by
          simp [updFn]]
        dsimp only
        rw [show sp.results mm.id = none from hmid ▸ hres]
        rw [if_neg (by simp), if_neg hnb2, if_pos hlenOK2, if_pos hjoins2]
        exact ⟨_, rfl⟩
      obtain ⟨rr, htry⟩ := htry
      have hred : mulReduce cfg sp (.mul mm) =
          some (MulState.mk (updFn s1.muls om.id none)
            (updFn s1.opens om.id [])
            (updFn s1.results om.id (some rr)), [rr]) := by
        simp only [mulReduce, mulFn]
        rw [show sp.results mm.id = none from hmid ▸ hres]
        rw [if_pos hlenys]
        rw [show tryOpenMul cfg
            (MulState.mk (updFn sp.muls mm.id (some mm)) sp.opens sp.results)
            (OpenMulT.mk mm.id cfg.index
              ((List.range mm.xs.length).map (fun b =>
                ((mm.xs.getD b default).mul (mm.ys.getD b default)).add
                  (mm.ρs.getD b default)))) =
            some (MulState.mk (updFn s1.muls om.id none)
              (updFn s1.opens om.id [])
              (updFn s1.results om.id (some rr)), some rr) from htry]
        rfl
      have hf' : Fired cfg idn (p ++ [.mul mm]) := by
        refine ⟨hexists', ?_⟩
        rw [hcard']
        omega
      refine ⟨_, [rr], hred, ?_⟩
      constructor
      · intro _
        refine ⟨by simpa using hout, ?_, ?_⟩
        · show (if idn = om.id then some rr else s1.results idn).isSome
          rw [if_pos (show idn = om.id from hmid.symm)]
          rfl
        · show (if idn = om.id then none else s1.muls idn) = none
          rw [if_pos (show idn = om.id from hmid.symm)]
      · intro hnf2
        exact absurd hf' hnf2

/-- C6 witness: a fresh `Rand` at pc 0 allocates its sinks and suspends on
`IntentToGenRn`, and a `Mul` whose sink already holds a share pushes it
and advances. -/
theorem prog_exec_suspension_witness :
    Prog.exec (q := 5) ⟨[], [.InstRand none none false false ⟨0, 0⟩ ⟨0, 0⟩], 0⟩ =
      some (⟨[],
        [.InstRand (some none) (some none) false false ⟨0, 0⟩ ⟨0, 0⟩], 0⟩,
        NotReady (some .IntentToGenRn)) ∧
    ∃ code2,
      Prog.exec (q := 5) ⟨[], [.InstMul (some (some ⟨1, 3⟩)) false ⟨0, 0⟩], 0⟩ =
        some (⟨[Value.ValuePrivate ⟨1, 3⟩], code2, 1⟩, Ready) := by
  constructor
  · exact (prog_exec_suspension ⟨[], [.InstRand none none false false ⟨0, 0⟩ ⟨0, 0⟩], 0⟩).1
      none none false false ⟨0, 0⟩ ⟨0, 0⟩ rfl (Or.inl rfl)
  · obtain ⟨code2, hc⟩ :=
      (prog_exec_suspension (q := 5)
        ⟨[], [.InstMul (some (some ⟨1, 3⟩)) false ⟨0, 0⟩], 0⟩).2.2.2.2.2.1
        (some ⟨1, 3⟩) false ⟨0, 0⟩ rfl (Or.inr rfl)
    exact ⟨code2, hc⟩

/-- The freshly constructed multiplier satisfies the run invariant for the
empty run. -/
theorem mulInit_invariant {q : ℕ} (cfg : MulCfg) (idn L : ℕ) :
    MulInvariant cfg idn L [] (mulInit q) 0 := by
  constructor
  · rintro ⟨⟨mm, hmm⟩, _⟩
    simp at hmm
  · intro _
    refine ⟨rfl, rfl, ?_, ?_, ?_, ?_, ?_, ?_⟩
    · simp [mulInit]
    · simp [mulInit, runSenders]
    · simp [mulInit]
    · simp [mulInit]
    · constructor
      · rintro ⟨mm, hmm⟩
        simp at hmm
      · intro h
        simp [mulInit] at h
    · intro mm' h
      simp [mulInit] at h

/-- Running the multiplier over any list of well-formed messages for one
id, with at most one `Mul` signal across the past and the future, never
panics and maintains the invariant. -/
theorem runMul_inv_aux {q : ℕ} [Fact q.Prime] (cfg : MulCfg) (idn L : ℕ)
    (hk : 1 ≤ cfg.k) (hidx : cfg.index < q)
    (hidxn : 1 ≤ cfg.index ∧ cfg.index ≤ cfg.n) :
    ∀ (ms p : List (MulMsg q)) (sp : MulState q) (outLen : ℕ),
      MulInvariant cfg idn L p sp outLen →
      (∀ mm, MulMsg.mul mm ∈ ms → WFMul cfg idn L mm) →
      (∀ o, MulMsg.openMul o ∈ ms → WFOpen idn L o) →
      (∀ o, MulMsg.openMul o ∈ ms → 1 ≤ o.From ∧ o.From ≤ cfg.n) →
      p.countP isMulSignal + ms.countP isMulSignal ≤ 1 →
      ∃ sp' outp, runMul cfg sp ms = some (sp', outp) ∧
        MulInvariant cfg idn L (p ++ ms) sp' (outLen + outp.length) := by
  intro ms
  induction ms with
  | nil =>
    intro p sp outLen hinv _ _ _ _
    exact ⟨sp, [], rfl, by simpa using hinv⟩
  | cons m rest ih =>
    intro p sp outLen hinv hwfm hwfo hbound hcnt
    cases m with
    | openMul o =>
      have ho : WFOpen idn L o := hwfo o (by simp)
      have hob : 1 ≤ o.From ∧ o.From ≤ cfg.n := hbound o (by simp)
      obtain ⟨sp1, out1, hred, hinv1⟩ :=
        (mulReduce_preserves_inv cfg idn L hk hidx hidxn p sp outLen hinv).1 o ho hob
      obtain ⟨sp2, out2, hrun, hinv2⟩ := ih (p ++ [.openMul o]) sp1
        (outLen + out1.length) hinv1
        (fun mm hmm => hwfm mm (by simp [hmm]))
        (fun o' ho' => hwfo o' (by simp [ho']))
        (fun o' ho' => hbound o' (by simp [ho']))
        (by
          simp [List.countP_append, List.countP_cons, isMulSignal] at hcnt ⊢
          omega)
      refine ⟨sp2, out1 ++ out2, ?_, ?_⟩
      · simp only [runMul]
        rw [hred]
        dsimp only
        rw [hrun]
      · have hl : p ++ MulMsg.openMul o :: rest =
            (p ++ [MulMsg.openMul o]) ++ rest := by simp
        rw [hl, List.length_append, ← Nat.add_assoc]
        exact hinv2
    | mul mm =>
      have hm : WFMul cfg idn L mm := hwfm mm (by simp)
      have hp0 : p.countP isMulSignal = 0 := by
        simp [List.countP_cons, isMulSignal] at hcnt
        omega
      have hnomul : ¬ ∃ mm' : MulMsgT q, MulMsg.mul mm' ∈ p := by
        rintro ⟨mm', hmm'⟩
        have := (List.countP_eq_zero.mp hp0) _ hmm'
        simp [isMulSignal] at this
      obtain ⟨sp1, out1, hred, hinv1⟩ :=
        (mulReduce_preserves_inv cfg idn L hk hidx hidxn p sp outLen hinv).2 mm hm hnomul
      obtain ⟨sp2, out2, hrun, hinv2⟩ := ih (p ++ [.mul mm]) sp1
        (outLen + out1.length) hinv1
        (fun mm' hmm' => hwfm mm' (by simp [hmm']))
        (fun o' ho' => hwfo o' (by simp [ho']))
        (fun o' ho' => hbound o' (by simp [ho']))
        (by
          simp [List.countP_append, List.countP_cons, isMulSignal] at hcnt ⊢
          omega)
      refine ⟨sp2, out1 ++ out2, ?_, ?_⟩
      · simp only [runMul]
        rw [hred]
        dsimp only
        rw [hrun]
      · have hl : p ++ MulMsg.mul mm :: rest =
            (p ++ [MulMsg.mul mm]) ++ rest := by simp
        rw [hl, List.length_append, ← Nat.add_assoc]
        exact hinv2

/-- C1 counterexample: the same multiset of messages for one id — the
`Mul` signal and two `OpenMul`s — delivered in two different orders makes
the multiplier emit a `Result` carrying a *different* interpolated share:
with the quorum met at two senders the line through their points gives 0
at x = 0, while with all three present the quadratic gives 2. -/
theorem mul_order_dependent_result_counterexample :
    (runMul (q := 5) ⟨1, 3, 2⟩ (mulInit 5)
        [.mul ⟨0, [⟨1, 1⟩], [⟨1, 1⟩], [⟨1, 0⟩], [⟨1, 0⟩]⟩,
         .openMul ⟨0, 2, [⟨2, 2⟩]⟩,
         .openMul ⟨0, 3, [⟨3, 0⟩]⟩]).map Prod.snd =
      some [⟨0, [⟨1, 0⟩]⟩] ∧
    (runMul (q := 5) ⟨1, 3, 2⟩ (mulInit 5)
        [.openMul ⟨0, 2, [⟨2, 2⟩]⟩,
         .openMul ⟨0, 3, [⟨3, 0⟩]⟩,
         .mul ⟨0, [⟨1, 1⟩], [⟨1, 1⟩], [⟨1, 0⟩], [⟨1, 0⟩]⟩]).map Prod.snd =
      some [⟨0, [⟨1, 2⟩]⟩] ∧
    ([⟨0, [(⟨1, 0⟩ : Share 5)]⟩] : List (MulResultT 5)) ≠ [⟨0, [⟨1, 2⟩]⟩] := by
  refine ⟨by decide, by decide, by decide⟩

/-- C1 (amended): over any run of well-formed messages for a single id —
sender indices within `1..n`, so the source's `n`-sized interpolation
buffer (mul.go:97) never overflows — containing at most one `Mul`
signal, the multiplier never panics and emits exactly one `Result` iff
the `Mul` signal and `OpenMul`s from at least `k` distinct senders
(counting the multiplier's own local opening) have been received — in
any arrival order; no `Result` is emitted while either condition is
missing.  (The emitted share's value, however, may depend on the order,
as the counterexample shows.) -/
theorem mul_quorum_emission {q : ℕ} [Fact q.Prime] (cfg : MulCfg)
    (idn L : ℕ) (hk : 1 ≤ cfg.k) (hidx : cfg.index < q)
    (hidxn : 1 ≤ cfg.index ∧ cfg.index ≤ cfg.n)
    (ms : List (MulMsg q))
    (hwfm : ∀ mm, MulMsg.mul mm ∈ ms → WFMul cfg idn L mm)
    (hwfo : ∀ o, MulMsg.openMul o ∈ ms → WFOpen idn L o)
    (hbound : ∀ o, MulMsg.openMul o ∈ ms → 1 ≤ o.From ∧ o.From ≤ cfg.n)
    (hone : ms.countP isMulSignal ≤ 1) :
    ∃ sp outp, runMul cfg (mulInit q) ms = some (sp, outp) ∧
      (Fired cfg idn ms → outp.length = 1) ∧
      (¬ Fired cfg idn ms → outp.length = 0) := by
  obtain ⟨sp, outp, hrun, hinv⟩ := runMul_inv_aux cfg idn L hk hidx hidxn ms []
    (mulInit q) 0 (mulInit_invariant cfg idn L) hwfm hwfo hbound (by simpa using hone)
  refine ⟨sp, outp, hrun, ?_, ?_⟩
  · intro hf
    have h1 := (hinv.1 hf).1
    omega
  · intro hnf
    have h0 := (hinv.2 hnf).1
    omega

/-- C1 witness: on the concrete run `Mul` then two `OpenMul`s over `F_5`
with `k = 2`, the amended theorem applies and the firing condition holds,
so exactly one `Result` is emitted. -/
theorem mul_quorum_emission_witness :
    ∃ sp outp, runMul (q := 5) ⟨1, 3, 2⟩ (mulInit 5)
        [.mul ⟨0, [⟨1, 1⟩], [⟨1, 1⟩], [⟨1, 0⟩], [⟨1, 0⟩]⟩,
         .openMul ⟨0, 2, [⟨2, 2⟩]⟩,
         .openMul ⟨0, 3, [⟨3, 0⟩]⟩] = some (sp, outp) ∧
      (Fired (q := 5) ⟨1, 3, 2⟩ 0
        [.mul ⟨0, [⟨1, 1⟩], [⟨1, 1⟩], [⟨1, 0⟩], [⟨1, 0⟩]⟩,
         .openMul ⟨0, 2, [⟨2, 2⟩]⟩,
         .openMul ⟨0, 3, [⟨3, 0⟩]⟩] → outp.length = 1) ∧
      (¬ Fired (q := 5) ⟨1, 3, 2⟩ 0
        [.mul ⟨0, [⟨1, 1⟩], [⟨1, 1⟩], [⟨1, 0⟩], [⟨1, 0⟩]⟩,
         .openMul ⟨0, 2, [⟨2, 2⟩]⟩,
         .openMul ⟨0, 3, [⟨3, 0⟩]⟩] → outp.length = 0) := by
  haveI : Fact (Nat.Prime 5) := ⟨by norm_num⟩
  exact mul_quorum_emission ⟨1, 3, 2⟩ 0 1 (by decide) (by decide) (by decide)
    [.mul ⟨0, [⟨1, 1⟩], [⟨1, 1⟩], [⟨1, 0⟩], [⟨1, 0⟩]⟩,
     .openMul ⟨0, 2, [⟨2, 2⟩]⟩,
     .openMul ⟨0, 3, [⟨3, 0⟩]⟩]
    (by
      intro mm hmm
      simp only [List.mem_cons, List.not_mem_nil, or_false, false_or,
        reduceCtorEq, MulMsg.mul.injEq] at hmm
      subst hmm
      exact ⟨rfl, rfl, rfl, rfl, rfl, by decide⟩)
    (by
      intro o ho
      simp only [List.mem_cons, List.not_mem_nil, or_false, false_or,
        reduceCtorEq, MulMsg.openMul.injEq] at ho
      rcases ho with h | h
      · subst h
        exact ⟨rfl, rfl, by decide, by decide⟩
      · subst h
        exact ⟨rfl, rfl, by decide, by decide⟩)
    (by
      intro o ho
      simp only [List.mem_cons, List.not_mem_nil, or_false, false_or,
        reduceCtorEq, MulMsg.openMul.injEq] at ho
      rcases ho with h | h
      · subst h
        exact ⟨by decide, by decide⟩
      · subst h
        exact ⟨by decide, by decide⟩)
    (by decide)

end Tau
